import Mathlib

/-!
Verification of the wave-playground simulation core (src/WaveSimulation.ts).

Shallow embedding conventions:
* JavaScript numbers are idealized as exact rationals extended with the
  IEEE-754 special values `NaN`, `+Infinity`, `-Infinity` (type `F` below).
  Finite arithmetic is exact (no rounding/overflow of finite values);
  propagation of the special values follows IEEE-754 / JS semantics.
* `Math.sin`, `Math.cos`, `Math.exp` are abstracted as an oracle record
  `MathO` of functions `ℚ → ℚ` (their values on finite inputs are finite
  rationals in the model); the theorems quantify over the oracle.
* `Float32Array` / `Uint8Array` are modeled as total functions from `ℤ`
  with an explicit length: reading out of bounds yields `undefined`,
  which behaves as `NaN` in arithmetic and fails `isFinite`, so it is
  modeled as `F.nan`; writing out of bounds is a no-op, exactly as for
  JS typed arrays.
* `x | 0` (32-bit truncation) is modeled by `truncQ` followed by `toInt32`.
* `Math.round x` is `⌊x + 1/2⌋`, matching JS round-half-up.
* `d < 0.7` on a (nonnegative) euclidean distance is modeled by comparing
  the squared distance with `49/100`, avoiding the irrational `sqrt`.
-/

namespace Wave

/-- A JS number restricted to the values relevant here: an exact rational,
or one of the IEEE-754 special values. -/
inductive F where
  | num (q : ℚ)
  | posInf
  | negInf
  | nan
deriving DecidableEq, Repr

/-- IEEE/JS addition on `F` (finite addition exact). -/
def F.add : F → F → F
  | F.nan, _ => F.nan
  | _, F.nan => F.nan
  | F.num a, F.num b => F.num (a + b)
  | F.num _, F.posInf => F.posInf
  | F.num _, F.negInf => F.negInf
  | F.posInf, F.num _ => F.posInf
  | F.negInf, F.num _ => F.negInf
  | F.posInf, F.posInf => F.posInf
  | F.negInf, F.negInf => F.negInf
  | F.posInf, F.negInf => F.nan
  | F.negInf, F.posInf => F.nan

/-- IEEE/JS negation on `F`. -/
def F.neg : F → F
  | F.nan => F.nan
  | F.num a => F.num (-a)
  | F.posInf => F.negInf
  | F.negInf => F.posInf

/-- IEEE/JS subtraction on `F` (`a - b = a + (-b)` holds exactly in IEEE). -/
def F.sub (a b : F) : F := a.add b.neg

/-- IEEE/JS multiplication on `F` (finite multiplication exact; `0 * ±∞ = NaN`). -/
def F.mul : F → F → F
  | F.nan, _ => F.nan
  | _, F.nan => F.nan
  | F.num a, F.num b => F.num (a * b)
  | F.num a, F.posInf => if a > 0 then F.posInf else if a < 0 then F.negInf else F.nan
  | F.num a, F.negInf => if a > 0 then F.negInf else if a < 0 then F.posInf else F.nan
  | F.posInf, F.num b => if b > 0 then F.posInf else if b < 0 then F.negInf else F.nan
  | F.negInf, F.num b => if b > 0 then F.negInf else if b < 0 then F.posInf else F.nan
  | F.posInf, F.posInf => F.posInf
  | F.posInf, F.negInf => F.negInf
  | F.negInf, F.posInf => F.negInf
  | F.negInf, F.negInf => F.posInf

/-- JS `<` on numbers: any comparison with `NaN` is false. -/
def F.lt : F → F → Bool
  | F.nan, _ => false
  | _, F.nan => false
  | F.num a, F.num b => decide (a < b)
  | F.num _, F.posInf => true
  | F.num _, F.negInf => false
  | F.posInf, _ => false
  | F.negInf, F.num _ => true
  | F.negInf, F.posInf => true
  | F.negInf, F.negInf => false

/-- JS `isFinite`. -/
def F.isFinite : F → Bool
  | F.num _ => true
  | _ => false

/-- JS `Math.abs`. -/
def F.abs : F → F
  | F.nan => F.nan
  | F.num a => F.num |a|
  | F.posInf => F.posInf
  | F.negInf => F.posInf

/-- JS `Math.max` on two arguments: `NaN` if either argument is `NaN`. -/
def F.maxJ (a b : F) : F :=
  if a = F.nan ∨ b = F.nan then F.nan else if F.lt a b then b else a

/-- Read a typed array of length `len` at (signed) index `i`:
out of bounds gives `undefined`, modeled as `nan`. -/
def aget (len : ℕ) (f : ℤ → F) (i : ℤ) : F :=
  if 0 ≤ i ∧ i < (len : ℤ) then f i else F.nan

/-- Write a typed array of length `len` at (signed) index `i`:
out of bounds is a no-op. -/
def aset (len : ℕ) (f : ℤ → F) (i : ℤ) (v : F) : ℤ → F :=
  if 0 ≤ i ∧ i < (len : ℤ) then (fun j => if j = i then v else f j) else f

/-- `TypedArray.fill(q)`: every in-bounds element becomes `q`. -/
def afill (len : ℕ) (f : ℤ → F) (q : ℚ) : ℤ → F :=
  fun j => if 0 ≤ j ∧ j < (len : ℤ) then F.num q else f j

/-- Write a `Uint8Array`-backed boolean mask (in-bounds by construction at
every call site, mirroring the source). -/
def mset (m : ℤ → Bool) (i : ℤ) (v : Bool) : ℤ → Bool :=
  fun j => if j = i then v else m j

/-- JS `y * cols + x` row-major index (`WaveSimulation.getIndex`). -/
def getIndex (cols : ℕ) (x y : ℤ) : ℤ := y * (cols : ℤ) + x

/-- JS `Math.round`: `⌊q + 1/2⌋` (round half toward `+∞`). -/
def roundJ (q : ℚ) : ℤ := ⌊q + 1/2⌋

/-- Truncation toward zero of a rational (the integer part JS `|0` starts from). -/
def truncQ (q : ℚ) : ℤ := Int.tdiv q.num (q.den : ℤ)

/-- Wrap an integer to a signed 32-bit value (final part of JS `|0`). -/
def toInt32 (z : ℤ) : ℤ :=
  let m := z % 4294967296
  if m < 2147483648 then m else m - 4294967296

/-- Oracle for the transcendental functions used by the source
(`Math.sin`, `Math.cos`, `Math.exp`), which return finite values on finite
inputs; the theorems quantify over it. -/
structure MathO where
  sinO : ℚ → ℚ
  cosO : ℚ → ℚ
  expO : ℚ → ℚ

/-- `WaveSource` (src/WaveSimulation.ts lines 1-16). Optional JS fields are
`Option ℚ`; `undefined`/absent is `none`. -/
structure Src where
  x : ℚ
  y : ℚ
  frequency : ℚ
  amplitude : ℚ
  phase : ℚ
  active : Bool
  vx : Option ℚ := none
  vy : Option ℚ := none
  orbitCenterX : Option ℚ := none
  orbitCenterY : Option ℚ := none
  orbitRadius : Option ℚ := none
  orbitSpeed : Option ℚ := none
  orbitAngle : Option ℚ := none
deriving DecidableEq, Repr

/-- A slit interval along a wall; the source field named `end` is called
`stop` here because `end` is a Lean keyword. -/
structure Slit where
  start : ℚ
  stop : ℚ
deriving DecidableEq, Repr

/-- `Wall` (src/WaveSimulation.ts lines 18-24). -/
structure Wall where
  x1 : ℚ
  y1 : ℚ
  x2 : ℚ
  y2 : ℚ
  slits : Option (List Slit) := none
deriving DecidableEq, Repr

/-- The `WaveSimulation` state. Simulation parameters are set-up values and
stay finite rationals; the per-cell arrays carry `F` values. The private
pre-allocated `sampleBuffer` is not modeled: `sampleLine` returns the
`subarray(0, numSamples)` contents directly (buffer reuse is unobservable
beyond that view, per the spec). -/
structure Sim where
  width : ℚ
  height : ℚ
  cellSize : ℚ
  cols : ℕ
  rows : ℕ
  current : ℤ → F
  previous : ℤ → F
  velocity : ℤ → F
  energyMap : ℤ → F
  energyTrailEnabled : Bool
  energyDecay : ℚ
  wallMask : ℤ → Bool
  wallMaskDirty : Bool
  waveSpeed : ℚ
  damping : ℚ
  dt : ℚ
  sources : List Src
  walls : List Wall
  reflectiveBoundaries : Bool

/-- Number of cells, `cols * rows`. -/
def Sim.len (s : Sim) : ℕ := s.cols * s.rows

/-- `CFL_LIMIT = 0.5` (src/WaveSimulation.ts line 57). -/
def CFL_LIMIT : ℚ := 1/2

/-- The `WaveSimulation` constructor (lines 63-76): `cols = ceil(w/cell)`,
`rows = ceil(h/cell)`, all arrays zero-filled, mask dirty, parameter
defaults from the field initializers. Negative dimensions (for which the
JS constructor would throw on array allocation, implementation-defined per
the spec) clamp to an empty grid via `toNat`. -/
def mkSim (width height cellSize : ℚ) : Sim :=
  let cols := (⌈width / cellSize⌉).toNat
  let rows := (⌈height / cellSize⌉).toNat
  { width := width
    height := height
    cellSize := cellSize
    cols := cols
    rows := rows
    current := fun _ => F.num 0
    previous := fun _ => F.num 0
    velocity := fun _ => F.num 0
    energyMap := fun _ => F.num 0
    energyTrailEnabled := false
    energyDecay := 997/1000
    wallMask := fun _ => false
    wallMaskDirty := true
    waveSpeed := 1/2
    damping := 995/1000
    dt := 1
    sources := []
    walls := []
    reflectiveBoundaries := false }

/-- Squared distance from `(px,py)` to the segment `(x1,y1)-(x2,y2)`
(`distanceToLine`, lines 279-289, squared to avoid `sqrt`; the comparison
`distance < 0.7` is rendered as squared distance `< 49/100`). -/
def distToLine2 (px py x1 y1 x2 y2 : ℚ) : ℚ :=
  let dx := x2 - x1
  let dy := y2 - y1
  let len2 := dx * dx + dy * dy
  if len2 = 0 then (px - x1) ^ 2 + (py - y1) ^ 2
  else
    let t := max 0 (min 1 (((px - x1) * dx + (py - y1) * dy) / len2))
    (px - (x1 + t * dx)) ^ 2 + (py - (y1 + t * dy)) ^ 2

/-- `isPointOnWall` (lines 274-277): distance below the `0.7` tolerance. -/
def isPointOnWall (x y : ℚ) (w : Wall) : Bool :=
  decide (distToLine2 x y w.x1 w.y1 w.x2 w.y2 < 49/100)

/-- `getParametricPosition` (lines 291-299). -/
def paramPos (x y : ℚ) (w : Wall) : ℚ :=
  let dx := w.x2 - w.x1
  let dy := w.y2 - w.y1
  let len2 := dx * dx + dy * dy
  if len2 = 0 then 0
  else ((x - w.x1) * dx + (y - w.y1) * dy) / len2

/-- `isInsideWall` (lines 256-272): the first wall the point lies on decides
(slit hit means open); later walls are not consulted. -/
def isInsideWall (walls : List Wall) (x y : ℚ) : Bool :=
  match walls with
  | [] => false
  | w :: ws =>
    if isPointOnWall x y w then
      match w.slits with
      | some sl =>
        !(sl.any fun s =>
          decide (s.start ≤ paramPos x y w) && decide (paramPos x y w ≤ s.stop))
      | none => true
    else isInsideWall ws x y

/-- Cell coordinates swept by `rebuildWallMask` (all `(y,x)` row-major). -/
def allCells (rows cols : ℕ) : List (ℕ × ℕ) :=
  (List.range rows).flatMap fun y => (List.range cols).map fun x => (y, x)

/-- Mask produced by the `rebuildWallMask` double loop (lines 120-126). -/
def buildMask (walls : List Wall) (rows cols : ℕ) : ℤ → Bool :=
  (allCells rows cols).foldl
    (fun m yx =>
      if isInsideWall walls (yx.2 : ℚ) (yx.1 : ℚ) then
        mset m ((yx.1 : ℤ) * (cols : ℤ) + (yx.2 : ℤ)) true
      else m)
    (fun _ => false)

/-- `rebuildWallMask` (lines 116-128): no-op unless dirty; empty wall list
short-circuits to an all-clear mask. -/
def rebuildWallMask (s : Sim) : Sim :=
  if !s.wallMaskDirty then s
  else if s.walls.isEmpty then
    { s with wallMask := fun _ => false, wallMaskDirty := false }
  else
    { s with wallMask := buildMask s.walls s.rows s.cols, wallMaskDirty := false }

/-- JS truthiness of an optional numeric field: `undefined`, `0` are falsy. -/
def truthyOpt : Option ℚ → Bool
  | none => false
  | some q => decide (q ≠ 0)

/-- `subSteps = Math.max(1, Math.ceil(cflRatio / CFL_LIMIT))` with
`cflRatio = waveSpeed * dt` (step, lines 132-133). -/
def numSubSteps (ws dt : ℚ) : ℤ := max 1 ⌈ws * dt / CFL_LIMIT⌉

/-- The amplitude clamp in the update rule (line 224):
`newValue > 50 ? 50 : newValue < -50 ? -50 : newValue`. -/
def clampJ (v : F) : F :=
  if F.lt (F.num 50) v then F.num 50
  else if F.lt v (F.num (-50)) then F.num (-50)
  else v

/-- Orbital-motion update for one source (step, lines 140-151). The guards
are JS `!= null` checks, i.e. `isSome`; `orbitAngle ?? 0` and
`orbitCenterY ?? orbitCenterX` are nullish coalescing. -/
def orbUpd (o : MathO) (src : Src) : Src :=
  if src.orbitCenterX.isSome && src.orbitRadius.isSome && src.orbitSpeed.isSome then
    let ang := src.orbitAngle.getD 0 + src.orbitSpeed.getD 0
    let newX := src.orbitCenterX.getD 0 + src.orbitRadius.getD 0 * o.cosO ang
    let newY := src.orbitCenterY.getD (src.orbitCenterX.getD 0)
                  + src.orbitRadius.getD 0 * o.sinO ang
    { src with
      orbitAngle := some ang
      vx := some ((newX - src.x) * (1/10))
      vy := some ((newY - src.y) * (1/10))
      x := newX
      y := newY }
  else src

/-- The injection part of one source-loop iteration (step, lines 156-164):
add `amplitude * sin(time * (frequency + (vx || 0) * 0.001) + phase)` at the
rounded position when it is in bounds. -/
def injectField (o : MathO) (time : ℚ) (cols rows len : ℕ) (cur : ℤ → F) (src : Src) : ℤ → F :=
  let sx := roundJ src.x
  let sy := roundJ src.y
  if 0 ≤ sx ∧ sx < (cols : ℤ) ∧ 0 ≤ sy ∧ sy < (rows : ℤ) then
    let idx := sy * (cols : ℤ) + sx
    let freq := src.frequency + (src.vx.getD 0) * (1/1000)
    aset len cur idx
      ((aget len cur idx).add (F.num (src.amplitude * o.sinO (time * freq + src.phase))))
  else cur

/-- `if (source.vx) source.x += source.vx * this.dt` (line 168): JS
truthiness, so a missing or zero `vx` does not move the source. -/
def moveX (dt : ℚ) (src : Src) : Src :=
  if truthyOpt src.vx then { src with x := src.x + src.vx.getD 0 * dt } else src

/-- `if (source.vy) source.y += source.vy * this.dt` (line 169). -/
def moveY (dt : ℚ) (src : Src) : Src :=
  if truthyOpt src.vy then { src with y := src.y + src.vy.getD 0 * dt } else src

/-- The position-advance part of one source-loop iteration (step, lines
166-170): when `!source.orbitCenterX` (a falsy check, so `none` or
`some 0`), advance the position by any truthy manual velocity times `dt`. -/
def moveOne (dt : ℚ) (src : Src) : Src :=
  if !(truthyOpt src.orbitCenterX) then moveY dt (moveX dt src)
  else src

/-- One iteration of the source-injection loop (step, lines 154-171):
inactive sources are skipped (`continue`); active sources inject and then
advance. The accumulator carries the field and the mutated source list. -/
def injectMoveOne (o : MathO) (time dt : ℚ) (cols rows len : ℕ)
    (acc : (ℤ → F) × List Src) (src : Src) : (ℤ → F) × List Src :=
  if !src.active then (acc.1, acc.2 ++ [src])
  else (injectField o time cols rows len acc.1 src, acc.2 ++ [moveOne dt src])

/-- The complete per-source mutation a `step` applies to a source after the
orbital pass: nothing when inactive, otherwise the manual-velocity advance. -/
def moveSrc (dt : ℚ) (src : Src) : Src :=
  if !src.active then src else moveOne dt src

/-- Interior cell coordinates `(y,x)` swept by `substep` (lines 200-226):
`y` from `1` while `y < rows - 1`, `x` from `1` while `x < cols - 1`,
row-major. For `rows ≤ 2` or `cols ≤ 2` the sweep is empty, as in JS. -/
def interiorCells (rows cols : ℕ) : List (ℕ × ℕ) :=
  (List.range' 1 (rows - 2)).flatMap fun y =>
    (List.range' 1 (cols - 2)).map fun x => (y, x)

/-- The discrete Laplacian read (substep, lines 213-219):
`cur[idx+1] + cur[idx-1] + cur[idx+cols] + cur[idx-cols] - 4*cur[idx]`,
with JS left-to-right association. -/
def lapF (len cols : ℕ) (c : ℤ → F) (idx : ℤ) : F :=
  ((((aget len c (idx + 1)).add (aget len c (idx - 1))).add
      (aget len c (idx + (cols : ℤ)))).add
    (aget len c (idx - (cols : ℤ)))).sub ((F.num 4).mul (aget len c idx))

/-- `newValue = (2 * cur[idx] - prev[idx] + c2dt2 * laplacian) * damp`
(substep, line 222). -/
def nvF (len cols : ℕ) (c p : ℤ → F) (c2dt2 damp : ℚ) (idx : ℤ) : F :=
  ((((F.num 2).mul (aget len c idx)).sub (aget len p idx)).add
    ((F.num c2dt2).mul (lapF len cols c idx))).mul (F.num damp)

/-- The per-cell body of the `substep` sweep: wall cells are zeroed in both
arrays; otherwise `newValue` is written clamped, with `previous` receiving
the pre-update `current` value. The pair is `(current, previous)`. -/
def sweepCell (len cols : ℕ) (mask : ℤ → Bool) (c2dt2 damp : ℚ)
    (cp : (ℤ → F) × (ℤ → F)) (yx : ℕ × ℕ) : (ℤ → F) × (ℤ → F) :=
  let idx : ℤ := (yx.1 : ℤ) * (cols : ℤ) + (yx.2 : ℤ)
  if mask idx then
    (aset len cp.1 idx (F.num 0), aset len cp.2 idx (F.num 0))
  else
    (aset len cp.1 idx (clampJ (nvF len cols cp.1 cp.2 c2dt2 damp idx)),
     aset len cp.2 idx (aget len cp.1 idx))

/-- One loop iteration of the reflective boundary update: two sequential
copy-writes, the second reading the array updated by the first (as the JS
statements do). -/
def bcStep (len : ℕ) (t1 s1 t2 s2 : ℤ) (c : ℤ → F) : ℤ → F :=
  let c' := aset len c t1 (aget len c s1)
  aset len c' t2 (aget len c' s2)

/-- One loop iteration of the absorbing boundary update: two zero-writes. -/
def bcZeroStep (len : ℕ) (t1 t2 : ℤ) (c : ℤ → F) : ℤ → F :=
  aset len (aset len c t1 (F.num 0)) t2 (F.num 0)

/-- The reflective row loop (lines 304-307): for each column `x`, copy row
`1` into row `0`, then row `rows-2` into row `rows-1`. -/
def reflRowPass (cols rows len : ℕ) (cur : ℤ → F) : ℤ → F :=
  (List.range cols).foldl
    (fun c (x : ℕ) =>
      bcStep len (getIndex cols (x : ℤ) 0) (getIndex cols (x : ℤ) 1)
        (getIndex cols (x : ℤ) ((rows : ℤ) - 1)) (getIndex cols (x : ℤ) ((rows : ℤ) - 2)) c)
    cur

/-- The reflective column loop (lines 308-311). -/
def reflColPass (cols rows len : ℕ) (cur : ℤ → F) : ℤ → F :=
  (List.range rows).foldl
    (fun c (y : ℕ) =>
      bcStep len (getIndex cols 0 (y : ℤ)) (getIndex cols 1 (y : ℤ))
        (getIndex cols ((cols : ℤ) - 1) (y : ℤ)) (getIndex cols ((cols : ℤ) - 2) (y : ℤ)) c)
    cur

/-- The absorbing row loop (lines 314-317): zero rows `0` and `rows-1`. -/
def absRowPass (cols rows len : ℕ) (cur : ℤ → F) : ℤ → F :=
  (List.range cols).foldl
    (fun c (x : ℕ) =>
      bcZeroStep len (getIndex cols (x : ℤ) 0) (getIndex cols (x : ℤ) ((rows : ℤ) - 1)) c)
    cur

/-- The absorbing column loop (lines 318-321): zero columns `0` and `cols-1`. -/
def absColPass (cols rows len : ℕ) (cur : ℤ → F) : ℤ → F :=
  (List.range rows).foldl
    (fun c (y : ℕ) =>
      bcZeroStep len (getIndex cols 0 (y : ℤ)) (getIndex cols ((cols : ℤ) - 1) (y : ℤ)) c)
    cur

/-- `applyBoundaryConditions` (lines 301-323): reflective mode copies the
adjacent row/column outward (two sequential writes per loop iteration, the
second reading the possibly-updated array); absorbing mode zeroes the four
edges. Edge indices are computed in `ℤ` so that degenerate grids write out
of bounds (a no-op), as in JS. -/
def applyBC (reflective : Bool) (cols rows len : ℕ) (cur : ℤ → F) : ℤ → F :=
  if reflective then reflColPass cols rows len (reflRowPass cols rows len cur)
  else absColPass cols rows len (absRowPass cols rows len cur)

/-- `substep(dt)` (lines 190-230): `c2dt2 = waveSpeed² * dt²`, the interior
sweep, then boundary conditions. -/
def substep (subDt : ℚ) (s : Sim) : Sim :=
  let c2dt2 := s.waveSpeed * s.waveSpeed * (subDt * subDt)
  let cp := (interiorCells s.rows s.cols).foldl
    (sweepCell s.len s.cols s.wallMask c2dt2 s.damping) (s.current, s.previous)
  { s with
    current := applyBC s.reflectiveBoundaries s.cols s.rows s.len cp.1
    previous := cp.2 }

/-- The energy-trail update (step, lines 179-184):
`energyMap[i] = max(energyMap[i] * energyDecay, |current[i]|)` for every
cell, only while enabled. Each iteration touches its own index, so the
loop is rendered pointwise. -/
def energyUpdate (s : Sim) : Sim :=
  if s.energyTrailEnabled then
    { s with
      energyMap := fun i =>
        if 0 ≤ i ∧ i < (s.len : ℤ) then
          F.maxJ ((aget s.len s.energyMap i).mul (F.num s.energyDecay))
            (F.abs (aget s.len s.current i))
        else s.energyMap i }
  else s

/-- The sampling pattern of `stabilityGuard` (lines 233-254): the loop
visits exactly the multiples of `stride = (len >>> 4) || 1` below `len`
and additionally checks `current[len - 1]` (out of bounds for `len = 0`,
where `isFinite(undefined)` is false, as in JS). -/
def guardDetect (len : ℕ) (cur : ℤ → F) : Bool :=
  let stride := max 1 (len / 16)
  ((List.range len).any fun (i : ℕ) => i % stride == 0 && !(aget len cur (i : ℤ)).isFinite) ||
    !(aget len cur ((len : ℤ) - 1)).isFinite

/-- `stabilityGuard` (lines 233-254): on detection, zero-fill `current`,
`previous` and `velocity` (early return and fall-through perform the same
fills, so the guard is detection followed by one conditional reset). -/
def stabilityGuard (s : Sim) : Sim :=
  if guardDetect s.len s.current then
    { s with
      current := afill s.len s.current 0
      previous := afill s.len s.previous 0
      velocity := afill s.len s.velocity 0 }
  else s

/-- The part of `step(time)` before the sub-stepped wave update
(lines 136-171): mask rebuild, orbital updates, source injection and
manual-velocity advance. It does not read or write `waveSpeed`/`dt`, so
hoisting the sub-step computation over it preserves the source's order. -/
def sourcePhase (o : MathO) (time : ℚ) (s : Sim) : Sim :=
  let s1 := rebuildWallMask s
  let s2 := { s1 with sources := s1.sources.map (orbUpd o) }
  let inj := s2.sources.foldl (injectMoveOne o time s2.dt s2.cols s2.rows s2.len)
    (s2.current, [])
  { s2 with current := inj.1, sources := inj.2 }

/-- `step(time)` (lines 130-188): CFL sub-step count, source phase,
`subSteps` sub-steps of size `dt / subSteps`, energy trail, stability
guard. -/
def step (o : MathO) (time : ℚ) (s : Sim) : Sim :=
  let n := numSubSteps s.waveSpeed s.dt
  let subDt := s.dt / (n : ℚ)
  stabilityGuard (energyUpdate ((substep subDt)^[n.toNat] (sourcePhase o time s)))

/-- `addSource` (lines 82-91): pixel coordinates divided by `cellSize`,
active, zero phase; defaults `frequency = 0.05`, `amplitude = 1`. -/
def addSource (s : Sim) (x y frequency amplitude : ℚ) : Sim :=
  { s with sources := s.sources ++
      [{ x := x / s.cellSize
         y := y / s.cellSize
         frequency := frequency
         amplitude := amplitude
         phase := 0
         active := true }] }

/-- `addWall` (lines 93-102): the four pixel coordinates are each divided
by `cellSize`; the slit list is stored as passed; the mask is marked dirty. -/
def addWall (s : Sim) (x1 y1 x2 y2 : ℚ) (slits : Option (List Slit)) : Sim :=
  { s with
    walls := s.walls ++
      [{ x1 := x1 / s.cellSize
         y1 := y1 / s.cellSize
         x2 := x2 / s.cellSize
         y2 := y2 / s.cellSize
         slits := slits }]
    wallMaskDirty := true }

/-- `clear` (lines 104-113). -/
def clear (s : Sim) : Sim :=
  { s with
    current := afill s.len s.current 0
    previous := afill s.len s.previous 0
    velocity := afill s.len s.velocity 0
    energyMap := afill s.len s.energyMap 0
    wallMask := fun _ => false
    sources := []
    walls := []
    wallMaskDirty := true }

/-- `addOrbitalSource` (lines 392-414). -/
def addOrbitalSource (o : MathO) (s : Sim) (centerX centerY radius speed : ℚ)
    (frequency amplitude startAngle : ℚ) : Sim :=
  let cx := centerX / s.cellSize
  let cy := centerY / s.cellSize
  let r := radius / s.cellSize
  { s with sources := s.sources ++
      [{ x := cx + r * o.cosO startAngle
         y := cy + r * o.sinO startAngle
         frequency := frequency
         amplitude := amplitude
         phase := 0
         active := true
         orbitCenterX := some cx
         orbitCenterY := some cy
         orbitRadius := some r
         orbitSpeed := some speed
         orbitAngle := some startAngle }] }

/-- Offsets `-r .. r` for the impulse double loop. -/
def impulseOffsets (r : ℤ) : List ℤ :=
  (List.range (2 * r + 1).toNat).map fun (k : ℕ) => -r + (k : ℤ)

/-- `applyImpulse` (lines 326-347): a discretized Gaussian bump added to
interior cells within `r = ceil(radius/cellSize)` of the floor-converted
center. The Gaussian exponent `-dist2 / (2*sigma2)` uses exact rational
division (for `r = 0`, where JS divides by zero, the claims never evaluate
the oracle's value, so the idealization is harmless). -/
def applyImpulse (o : MathO) (s : Sim) (pixelX pixelY radius amplitude : ℚ) : Sim :=
  let cx := ⌊pixelX / s.cellSize⌋
  let cy := ⌊pixelY / s.cellSize⌋
  let r := ⌈radius / s.cellSize⌉
  let sigma : ℚ := (r : ℚ) * (1/2)
  let sigma2 := sigma * sigma
  let cur := (impulseOffsets r).foldl
    (fun cdy dy =>
      (impulseOffsets r).foldl
        (fun c dx =>
          let gx := cx + dx
          let gy := cy + dy
          if gx < 1 ∨ gx ≥ (s.cols : ℤ) - 1 ∨ gy < 1 ∨ gy ≥ (s.rows : ℤ) - 1 then c
          else
            let dist2 : ℚ := (dx : ℚ) * (dx : ℚ) + (dy : ℚ) * (dy : ℚ)
            if dist2 > (r : ℚ) * (r : ℚ) then c
            else
              let gaussian := amplitude * o.expO (-dist2 / (2 * sigma2))
              let idx := getIndex s.cols gx gy
              aset s.len c idx ((aget s.len c idx).add (F.num gaussian)))
        cdy)
    s.current
  { s with current := cur }

/-- `getValue` (lines 374-381): floor conversion to grid coordinates, `0`
out of bounds, otherwise the `current` cell. -/
def getValue (s : Sim) (x y : ℚ) : F :=
  let gx := ⌊x / s.cellSize⌋
  let gy := ⌊y / s.cellSize⌋
  if gx < 0 ∨ gx ≥ (s.cols : ℤ) ∨ gy < 0 ∨ gy ≥ (s.rows : ℤ) then F.num 0
  else aget s.len s.current (getIndex s.cols gx gy)

/-- `getEnergyValue` (lines 384-389). -/
def getEnergyValue (s : Sim) (x y : ℚ) : F :=
  let gx := ⌊x / s.cellSize⌋
  let gy := ⌊y / s.cellSize⌋
  if gx < 0 ∨ gx ≥ (s.cols : ℤ) ∨ gy < 0 ∨ gy ≥ (s.rows : ℤ) then F.num 0
  else aget s.len s.energyMap (getIndex s.cols gx gy)

/-- `sampleLine` (lines 351-372). For `numSamples = 1` the JS code computes
`invN = 1/0 = Infinity`, so `dx * 0 = NaN`, `px1 + NaN = NaN`, and
`NaN | 0 = 0`: the single sample reads cell `(0,0)` (or `0` when that is
out of bounds); this branch transcribes that float behavior. For
`numSamples ≠ 1` the interpolation is exact rational arithmetic and
`| 0` is truncation toward zero wrapped to 32 bits. -/
def sampleLine (s : Sim) (px1 py1 px2 py2 : ℚ) (numSamples : ℕ) : List F :=
  if numSamples = 1 then
    [if 0 < s.cols ∧ 0 < s.rows then aget s.len s.current 0 else F.num 0]
  else
    let invCellSize := 1 / s.cellSize
    let invN : ℚ := 1 / ((numSamples : ℚ) - 1)
    let dx := (px2 - px1) * invN
    let dy := (py2 - py1) * invN
    (List.range numSamples).map fun (i : ℕ) =>
      let gx := toInt32 (truncQ ((px1 + dx * (i : ℚ)) * invCellSize))
      let gy := toInt32 (truncQ ((py1 + dy * (i : ℚ)) * invCellSize))
      if 0 ≤ gx ∧ gx < (s.cols : ℤ) ∧ 0 ≤ gy ∧ gy < (s.rows : ℤ) then
        aget s.len s.current (gy * (s.cols : ℤ) + gx)
      else F.num 0

/-- In-bounds predicate for a typed array of length `len`. -/
def inb (len : ℕ) (i : ℤ) : Prop := 0 ≤ i ∧ i < (len : ℤ)

/-- All in-bounds cells of an array hold finite values. -/
def AllFin (len : ℕ) (f : ℤ → F) : Prop :=
  ∀ i : ℤ, inb len i → (aget len f i).isFinite = true

/-- A value that is a rational in the clamp interval `[-50, 50]`. -/
def InR (v : F) : Prop := ∃ q : ℚ, v = F.num q ∧ -50 ≤ q ∧ q ≤ 50

theorem F.fin_iff {v : F} : v.isFinite = true ↔ ∃ q, v = F.num q := by
  cases v <;> simp [F.isFinite]

theorem F.num_fin (q : ℚ) : (F.num q).isFinite = true := rfl

theorem F.add_fin {a b : F} (ha : a.isFinite = true) (hb : b.isFinite = true) :
    (a.add b).isFinite = true := by
  cases a <;> cases b <;> simp_all [F.add, F.isFinite]

theorem F.sub_fin {a b : F} (ha : a.isFinite = true) (hb : b.isFinite = true) :
    (a.sub b).isFinite = true := by
  cases a <;> cases b <;> simp_all [F.sub, F.add, F.neg, F.isFinite]

theorem F.mul_fin {a b : F} (ha : a.isFinite = true) (hb : b.isFinite = true) :
    (a.mul b).isFinite = true := by
  cases a <;> cases b <;> simp_all [F.mul, F.isFinite]

theorem F.add_num_nonfin {a : F} (q : ℚ) (ha : a.isFinite = false) :
    (a.add (F.num q)).isFinite = false := by
  cases a <;> simp_all [F.add, F.isFinite]

theorem clampJ_fin {a : F} (ha : a.isFinite = true) : InR (clampJ a) := by
  rcases F.fin_iff.mp ha with ⟨q, rfl⟩
  unfold clampJ
  by_cases h1 : (50 : ℚ) < q
  · exact ⟨50, by simp [F.lt, h1], by norm_num, le_refl _⟩
  · by_cases h2 : q < -50
    · exact ⟨-50, by simp [F.lt, h1, h2], le_refl _, by norm_num⟩
    · exact ⟨q, by simp [F.lt, h1, h2], by linarith [not_lt.mp h2], by linarith [not_lt.mp h1]⟩

theorem clampJ_nan : clampJ F.nan = F.nan := rfl

theorem InR_fin {v : F} (h : InR v) : v.isFinite = true := by
  rcases h with ⟨q, rfl, _, _⟩; rfl

theorem InR_zero : InR (F.num 0) := ⟨0, rfl, by norm_num, by norm_num⟩

theorem F.mul_pos_const_nonfin {c : F} (q : ℚ) (hq : 0 < q)
    (hc : c.isFinite = false) : (F.num q).mul c = c := by
  cases c <;> simp_all [F.mul, F.isFinite, hq, not_lt.mpr hq.le]

theorem F.nan_add (b : F) : F.nan.add b = F.nan := by cases b <;> rfl

theorem F.add_nan (a : F) : a.add F.nan = F.nan := by cases a <;> rfl

theorem F.nan_mul (b : F) : F.nan.mul b = F.nan := by cases b <;> rfl

theorem F.mul_nan (a : F) : a.mul F.nan = F.nan := by cases a <;> rfl

theorem F.sub_nan (a : F) : a.sub F.nan = F.nan := by cases a <;> rfl

/-- The sweep update applied where `current` holds a non-finite value
always produces `NaN` (the Laplacian contains `-4 * current`, so the
infinities cancel into `NaN`; `NaN` propagates; the clamp comparisons are
false on `NaN`). `q` is the always-nonnegative `c2dt2`. -/
theorem sweep_nonfin (c S p : F) (q damp : ℚ) (hq : 0 ≤ q)
    (hc : c.isFinite = false) :
    clampJ (((((F.num 2).mul c).sub p).add
      ((F.num q).mul (S.sub ((F.num 4).mul c)))).mul (F.num damp)) = F.nan := by
  have h2 : (F.num 2).mul c = c := F.mul_pos_const_nonfin 2 (by norm_num) hc
  have h4 : (F.num 4).mul c = c := F.mul_pos_const_nonfin 4 (by norm_num) hc
  rw [h2, h4]
  cases c with
  | num a => simp [F.isFinite] at hc
  | nan =>
    rw [show F.nan.sub p = F.nan from F.nan_add _, F.nan_add, F.nan_mul, clampJ_nan]
  | posInf =>
    have hlap : ∃ l, S.sub F.posInf = l ∧ (l = F.negInf ∨ l = F.nan) := by
      cases S <;> simp [F.sub, F.add, F.neg]
    have ht2 : ∃ t, F.posInf.sub p = t ∧ (t = F.posInf ∨ t = F.nan) := by
      cases p <;> simp [F.sub, F.add, F.neg]
    rcases hlap with ⟨l, hl, hl2⟩
    rcases ht2 with ⟨t, ht, ht2⟩
    rw [hl, ht]
    have hql : (F.num q).mul l = F.negInf ∨ (F.num q).mul l = F.nan := by
      rcases hl2 with rfl | rfl
      · rcases eq_or_lt_of_le hq with rfl | hqpos
        · simp [F.mul]
        · simp [F.mul, hqpos, not_lt.mpr hqpos.le]
      · right; exact F.mul_nan _
    have hsum : t.add ((F.num q).mul l) = F.nan := by
      rcases ht2 with rfl | rfl <;> rcases hql with h | h <;> rw [h] <;> rfl
    rw [hsum, F.nan_mul, clampJ_nan]
  | negInf =>
    have hlap : ∃ l, S.sub F.negInf = l ∧ (l = F.posInf ∨ l = F.nan) := by
      cases S <;> simp [F.sub, F.add, F.neg]
    have ht2 : ∃ t, F.negInf.sub p = t ∧ (t = F.negInf ∨ t = F.nan) := by
      cases p <;> simp [F.sub, F.add, F.neg]
    rcases hlap with ⟨l, hl, hl2⟩
    rcases ht2 with ⟨t, ht, ht2⟩
    rw [hl, ht]
    have hql : (F.num q).mul l = F.posInf ∨ (F.num q).mul l = F.nan := by
      rcases hl2 with rfl | rfl
      · rcases eq_or_lt_of_le hq with rfl | hqpos
        · simp [F.mul]
        · simp [F.mul, hqpos, not_lt.mpr hqpos.le]
      · right; exact F.mul_nan _
    have hsum : t.add ((F.num q).mul l) = F.nan := by
      rcases ht2 with rfl | rfl <;> rcases hql with h | h <;> rw [h] <;> rfl
    rw [hsum, F.nan_mul, clampJ_nan]

theorem aget_aset_self {len : ℕ} {f : ℤ → F} {i : ℤ} (h : inb len i) (v : F) :
    aget len (aset len f i v) i = v := by
  simp [aget, aset, inb] at *
  simp [h]

theorem aget_aset_ne {len : ℕ} {f : ℤ → F} {i j : ℤ} (h : j ≠ i) (v : F) :
    aget len (aset len f i v) j = aget len f j := by
  unfold aget aset
  split
  · split <;> simp [h]
  · rfl

theorem aset_apply_ne {len : ℕ} {f : ℤ → F} {i j : ℤ} (h : j ≠ i) (v : F) :
    aset len f i v j = f j := by
  unfold aset
  split <;> simp [h]

theorem aget_afill {len : ℕ} {f : ℤ → F} {q : ℚ} {i : ℤ} (h : inb len i) :
    aget len (afill len f q) i = F.num q := by
  simp [aget, afill, inb] at *
  simp [h]

theorem aget_oob {len : ℕ} {f : ℤ → F} {i : ℤ} (h : ¬ inb len i) :
    aget len f i = F.nan := by
  simp [aget, inb] at *
  intro h1 h2
  exact absurd h2 (not_lt.mpr (h h1)).elim

theorem aset_oob {len : ℕ} {f : ℤ → F} {i : ℤ} (h : ¬ inb len i) (v : F) :
    aset len f i v = f := by
  simp [aset, inb] at *
  intro h1 h2
  exact absurd h2 (not_lt.mpr (h h1)).elim

theorem aget_fin_of_allFin {len : ℕ} {f : ℤ → F} (h : AllFin len f) (i : ℤ) :
    (aget len f i).isFinite = true ∨ aget len f i = F.nan := by
  by_cases hi : inb len i
  · exact Or.inl (h i hi)
  · exact Or.inr (aget_oob hi)

/-- Row-major indices of distinct in-range columns/rows are injective. -/
theorem getIndex_inj {cols : ℕ} {x1 y1 x2 y2 : ℤ}
    (hx1 : 0 ≤ x1) (hx1' : x1 < (cols : ℤ)) (hx2 : 0 ≤ x2) (hx2' : x2 < (cols : ℤ))
    (h : getIndex cols x1 y1 = getIndex cols x2 y2) : x1 = x2 ∧ y1 = y2 := by
  unfold getIndex at h
  have hc : (0 : ℤ) < cols := lt_of_le_of_lt hx1 hx1'
  have hyeq : y1 = y2 := by
    by_contra hne
    rcases lt_or_gt_of_ne hne with hlt | hgt
    · have h2 : (1 : ℤ) * cols ≤ (y2 - y1) * cols :=
        mul_le_mul_of_nonneg_right (by omega) hc.le
      nlinarith
    · have h2 : (1 : ℤ) * cols ≤ (y1 - y2) * cols :=
        mul_le_mul_of_nonneg_right (by omega) hc.le
      nlinarith
  subst hyeq
  exact ⟨by linarith, rfl⟩

theorem getIndex_inb {cols rows : ℕ} {x y : ℤ}
    (hx : 0 ≤ x) (hx' : x < (cols : ℤ)) (hy : 0 ≤ y) (hy' : y < (rows : ℤ)) :
    inb (cols * rows) (getIndex cols x y) := by
  unfold inb getIndex
  constructor
  · positivity
  · push_cast
    nlinarith

theorem getIndex_ne {cols : ℕ} {x1 y1 x2 y2 : ℤ}
    (hx1 : 0 ≤ x1) (hx1' : x1 < (cols : ℤ)) (hx2 : 0 ≤ x2) (hx2' : x2 < (cols : ℤ))
    (h : x1 ≠ x2 ∨ y1 ≠ y2) : getIndex cols x1 y1 ≠ getIndex cols x2 y2 := by
  intro he
  rcases getIndex_inj hx1 hx1' hx2 hx2' he with ⟨hx, hy⟩
  rcases h with h | h <;> exact h (by assumption)

/-- An index addressed by the interior sweep. -/
def interiorIdx (cols rows : ℕ) (i : ℤ) : Prop :=
  ∃ x y : ℤ, 1 ≤ x ∧ x + 1 < (cols : ℤ) ∧ 1 ≤ y ∧ y + 1 < (rows : ℤ) ∧
    i = getIndex cols x y

/-- Edge cells are never interior sweep targets. -/
theorem edge_not_interior {cols rows : ℕ} {x y : ℤ}
    (hx : 0 ≤ x) (hx' : x < (cols : ℤ)) (hy : 0 ≤ y) (hy' : y < (rows : ℤ))
    (hedge : x = 0 ∨ x = (cols : ℤ) - 1 ∨ y = 0 ∨ y = (rows : ℤ) - 1) :
    ¬ interiorIdx cols rows (getIndex cols x y) := by
  rintro ⟨x', y', h1, h2, h3, h4, h5⟩
  rcases getIndex_inj hx hx' (by linarith) (by linarith) h5 with ⟨rfl, rfl⟩
  rcases hedge with h | h | h | h <;> omega

theorem mem_interiorCells {rows cols : ℕ} {yx : ℕ × ℕ} :
    yx ∈ interiorCells rows cols ↔
      1 ≤ yx.1 ∧ yx.1 + 1 < rows ∧ 1 ≤ yx.2 ∧ yx.2 + 1 < cols := by
  obtain ⟨y, x⟩ := yx
  simp only [interiorCells, List.mem_flatMap, List.mem_map, List.mem_range'_1]
  constructor
  · rintro ⟨y', ⟨hy1, hy2⟩, x', ⟨hx1, hx2⟩, he⟩
    obtain ⟨he1, he2⟩ := Prod.mk.injEq .. ▸ he
    subst he1; subst he2
    omega
  · rintro ⟨hy1, hy2, hx1, hx2⟩
    exact ⟨y, ⟨hy1, by omega⟩, x, ⟨hx1, by omega⟩, rfl⟩

/-- The sweep index of an interior cell, with its four neighbors, is in
bounds. -/
theorem interior_idx_inb {cols rows : ℕ} {x y : ℤ}
    (hx : 1 ≤ x) (hx' : x + 1 < (cols : ℤ)) (hy : 1 ≤ y) (hy' : y + 1 < (rows : ℤ)) :
    inb (cols * rows) (y * (cols : ℤ) + x) ∧
    inb (cols * rows) (y * (cols : ℤ) + x + 1) ∧
    inb (cols * rows) (y * (cols : ℤ) + x - 1) ∧
    inb (cols * rows) (y * (cols : ℤ) + x + (cols : ℤ)) ∧
    inb (cols * rows) (y * (cols : ℤ) + x - (cols : ℤ)) := by
  have hc : (3 : ℤ) ≤ cols := by linarith
  have hr : (3 : ℤ) ≤ rows := by linarith
  have hcr : ((cols * rows : ℕ) : ℤ) = (cols : ℤ) * (rows : ℤ) := by push_cast; ring
  have key : ∀ a b : ℤ, 0 ≤ a → 0 ≤ b → a < (cols : ℤ) → b < (rows : ℤ) →
      inb (cols * rows) (b * (cols : ℤ) + a) := by
    intro a b ha hb ha' hb'
    exact getIndex_inb ha ha' hb hb'
  refine ⟨key x y (by linarith) (by linarith) (by linarith) (by linarith), ?_, ?_, ?_, ?_⟩
  · have : y * (cols : ℤ) + x + 1 = y * (cols : ℤ) + (x + 1) := by ring
    rw [this]
    exact key (x + 1) y (by linarith) (by linarith) (by linarith) (by linarith)
  · have : y * (cols : ℤ) + x - 1 = y * (cols : ℤ) + (x - 1) := by ring
    rw [this]
    exact key (x - 1) y (by linarith) (by linarith) (by linarith) (by linarith)
  · have : y * (cols : ℤ) + x + (cols : ℤ) = (y + 1) * (cols : ℤ) + x := by ring
    rw [this]
    exact key x (y + 1) (by linarith) (by linarith) (by linarith) (by linarith)
  · have : y * (cols : ℤ) + x - (cols : ℤ) = (y - 1) * (cols : ℤ) + x := by ring
    rw [this]
    exact key x (y - 1) (by linarith) (by linarith) (by linarith) (by linarith)


theorem allFin_aset {len : ℕ} {f : ℤ → F} {i : ℤ} {v : F}
    (hf : AllFin len f) (hv : v.isFinite = true) : AllFin len (aset len f i v) := by
  intro j hj
  by_cases hji : j = i
  · subst hji
    rw [aget_aset_self hj]
    exact hv
  · rw [aget_aset_ne hji]
    exact hf j hj

theorem F.add_num_class (a : F) (q : ℚ) : (a.add (F.num q)).isFinite = a.isFinite := by
  cases a <;> simp [F.add, F.isFinite]

/-- Row-major sweep index of a cell coordinate pair `(y, x)`. -/
def idxZ (cols : ℕ) (yx : ℕ × ℕ) : ℤ := (yx.1 : ℤ) * (cols : ℤ) + (yx.2 : ℤ)

theorem aget_congr {len : ℕ} {f g : ℤ → F} {i : ℤ} (h : f i = g i) :
    aget len f i = aget len g i := by
  unfold aget
  split <;> simp [h]

theorem sweepCell_wall {len cols : ℕ} {mask : ℤ → Bool} {q damp : ℚ}
    {cp : (ℤ → F) × (ℤ → F)} {yx : ℕ × ℕ} (hm : mask (idxZ cols yx) = true) :
    sweepCell len cols mask q damp cp yx =
      (aset len cp.1 (idxZ cols yx) (F.num 0), aset len cp.2 (idxZ cols yx) (F.num 0)) := by
  simp [sweepCell, idxZ] at hm ⊢
  simp [hm]

theorem sweepCell_open {len cols : ℕ} {mask : ℤ → Bool} {q damp : ℚ}
    {cp : (ℤ → F) × (ℤ → F)} {yx : ℕ × ℕ} (hm : mask (idxZ cols yx) = false) :
    sweepCell len cols mask q damp cp yx =
      (aset len cp.1 (idxZ cols yx)
        (clampJ (nvF len cols cp.1 cp.2 q damp (idxZ cols yx))),
       aset len cp.2 (idxZ cols yx) (aget len cp.1 (idxZ cols yx))) := by
  simp [sweepCell, idxZ] at hm ⊢
  simp [hm]

theorem sweepCell_frame {len cols : ℕ} {mask : ℤ → Bool} {q damp : ℚ}
    {cp : (ℤ → F) × (ℤ → F)} {yx : ℕ × ℕ} {i : ℤ} (h : i ≠ idxZ cols yx) :
    (sweepCell len cols mask q damp cp yx).1 i = cp.1 i ∧
    (sweepCell len cols mask q damp cp yx).2 i = cp.2 i := by
  by_cases hm : mask (idxZ cols yx)
  · rw [sweepCell_wall hm]
    exact ⟨aset_apply_ne h _, aset_apply_ne h _⟩
  · rw [sweepCell_open (Bool.not_eq_true _ ▸ hm)]
    exact ⟨aset_apply_ne h _, aset_apply_ne h _⟩

theorem sweepFold_frame {len cols : ℕ} {mask : ℤ → Bool} {q damp : ℚ}
    (l : List (ℕ × ℕ)) (cp : (ℤ → F) × (ℤ → F)) {i : ℤ}
    (h : ∀ yx ∈ l, i ≠ idxZ cols yx) :
    (l.foldl (sweepCell len cols mask q damp) cp).1 i = cp.1 i ∧
    (l.foldl (sweepCell len cols mask q damp) cp).2 i = cp.2 i := by
  induction l generalizing cp with
  | nil => exact ⟨rfl, rfl⟩
  | cons yx l ih =>
    have h1 := @sweepCell_frame len cols mask q damp cp yx i
      (h yx (List.mem_cons_self yx l))
    have h2 := ih (sweepCell len cols mask q damp cp yx)
      (fun a ha => h a (List.mem_cons_of_mem _ ha))
    exact ⟨h2.1.trans h1.1, h2.2.trans h1.2⟩

/-- Interior-cell coordinates, as integers, from `interiorCells` membership. -/
theorem interior_coords {rows cols : ℕ} {yx : ℕ × ℕ}
    (h : yx ∈ interiorCells rows cols) :
    1 ≤ (yx.2 : ℤ) ∧ (yx.2 : ℤ) + 1 < (cols : ℤ) ∧
    1 ≤ (yx.1 : ℤ) ∧ (yx.1 : ℤ) + 1 < (rows : ℤ) := by
  rcases mem_interiorCells.mp h with ⟨h1, h2, h3, h4⟩
  refine ⟨?_, ?_, ?_, ?_⟩ <;> [exact_mod_cast h3; exact_mod_cast h4;
    exact_mod_cast h1; exact_mod_cast h2]

/-- Main sweep invariant: starting from finite `current`/`previous`
arrays, the sweep keeps both arrays finite, and every cell it has written
(the `done` accumulator plus the cells of `l`) holds a clamped value in
`[-50, 50]`. -/
theorem sweepFold_invariant {cols rows : ℕ} {mask : ℤ → Bool} {q damp : ℚ}
    (l : List (ℕ × ℕ)) (cp : (ℤ → F) × (ℤ → F)) (done : List ℤ)
    (hl : ∀ yx ∈ l, yx ∈ interiorCells rows cols)
    (h1 : AllFin (cols * rows) cp.1) (h2 : AllFin (cols * rows) cp.2)
    (h3 : ∀ i ∈ done, InR (aget (cols * rows) cp.1 i)) :
    AllFin (cols * rows) (l.foldl (sweepCell (cols * rows) cols mask q damp) cp).1 ∧
    AllFin (cols * rows) (l.foldl (sweepCell (cols * rows) cols mask q damp) cp).2 ∧
    (∀ i, (i ∈ done ∨ ∃ yx ∈ l, i = idxZ cols yx) →
      InR (aget (cols * rows) (l.foldl (sweepCell (cols * rows) cols mask q damp) cp).1 i)) := by
  induction l generalizing cp done with
  | nil =>
    refine ⟨h1, h2, ?_⟩
    intro i hi
    rcases hi with hi | ⟨yx, hyx, _⟩
    · exact h3 i hi
    · exact absurd hyx (List.not_mem_nil yx)
  | cons yx l ih =>
    have hyx := hl yx (List.mem_cons_self yx l)
    rcases interior_coords hyx with ⟨hx1, hx2, hy1, hy2⟩
    have hidx := interior_idx_inb hx1 hx2 hy1 hy2
    have hinb : inb (cols * rows) (idxZ cols yx) := hidx.1
    -- the value written into `current` at `idxZ yx` is in range, and the
    -- value written into `previous` is finite
    have hset : InR (aget (cols * rows) (sweepCell (cols * rows) cols mask q damp cp yx).1
          (idxZ cols yx)) ∧
        AllFin (cols * rows) (sweepCell (cols * rows) cols mask q damp cp yx).1 ∧
        AllFin (cols * rows) (sweepCell (cols * rows) cols mask q damp cp yx).2 := by
      by_cases hm : mask (idxZ cols yx)
      · rw [sweepCell_wall hm]
        refine ⟨?_, allFin_aset h1 rfl, allFin_aset h2 rfl⟩
        rw [aget_aset_self hinb]
        exact InR_zero
      · rw [sweepCell_open (Bool.not_eq_true _ ▸ hm)]
        have hnv : (nvF (cols * rows) cols cp.1 cp.2 q damp (idxZ cols yx)).isFinite = true := by
          unfold nvF lapF
          apply F.mul_fin _ (F.num_fin _)
          apply F.add_fin
          · exact F.sub_fin (F.mul_fin (F.num_fin _) (h1 _ hidx.1)) (h2 _ hidx.1)
          · apply F.mul_fin (F.num_fin _)
            apply F.sub_fin _ (F.mul_fin (F.num_fin _) (h1 _ hidx.1))
            exact F.add_fin (F.add_fin (F.add_fin (h1 _ hidx.2.1) (h1 _ hidx.2.2.1))
              (h1 _ hidx.2.2.2.1)) (h1 _ hidx.2.2.2.2)
        refine ⟨?_, allFin_aset h1 (InR_fin (clampJ_fin hnv)), allFin_aset h2 (h1 _ hidx.1)⟩
        rw [aget_aset_self hinb]
        exact clampJ_fin hnv
    have hdone' : ∀ i ∈ (idxZ cols yx :: done),
        InR (aget (cols * rows) (sweepCell (cols * rows) cols mask q damp cp yx).1 i) := by
      intro i hi
      rcases List.mem_cons.mp hi with rfl | hi
      · exact hset.1
      · by_cases hii : i = idxZ cols yx
        · subst hii
          exact hset.1
        · rw [aget_congr (sweepCell_frame hii).1]
          exact h3 i hi
    have := ih (sweepCell (cols * rows) cols mask q damp cp yx) (idxZ cols yx :: done)
      (fun a ha => hl a (List.mem_cons_of_mem _ ha)) hset.2.1 hset.2.2 hdone'
    refine ⟨this.1, this.2.1, ?_⟩
    intro i hi
    apply this.2.2
    rcases hi with hi | ⟨yx', hyx', he⟩
    · exact Or.inl (List.mem_cons_of_mem _ hi)
    · rcases List.mem_cons.mp hyx' with rfl | hyx'
      · exact Or.inl (he ▸ List.mem_cons_self _ _)
      · exact Or.inr ⟨yx', hyx', he⟩

theorem bcZeroStep_frame {len : ℕ} {t1 t2 i : ℤ} {c : ℤ → F}
    (h1 : i ≠ t1) (h2 : i ≠ t2) : bcZeroStep len t1 t2 c i = c i := by
  unfold bcZeroStep
  rw [aset_apply_ne h2, aset_apply_ne h1]

theorem bcZeroStep_zero_or_same {len : ℕ} {t1 t2 i : ℤ} {c : ℤ → F} :
    aget len (bcZeroStep len t1 t2 c) i = F.num 0 ∨
    aget len (bcZeroStep len t1 t2 c) i = aget len c i := by
  unfold bcZeroStep
  by_cases h2 : i = t2
  · subst h2
    by_cases hb : inb len i
    · exact Or.inl (aget_aset_self hb _)
    · exact Or.inr (by rw [aget_oob hb, aget_oob hb])
  · rw [aget_aset_ne h2]
    by_cases h1 : i = t1
    · subst h1
      by_cases hb : inb len i
      · exact Or.inl (aget_aset_self hb _)
      · exact Or.inr (by rw [aget_oob hb, aget_oob hb])
    · exact Or.inr (by rw [aget_aset_ne h1])

theorem bcZeroStep_write1 {len : ℕ} {t1 t2 : ℤ} {c : ℤ → F} (h : inb len t1) :
    aget len (bcZeroStep len t1 t2 c) t1 = F.num 0 := by
  unfold bcZeroStep
  by_cases h12 : t1 = t2
  · subst h12
    exact aget_aset_self h _
  · rw [aget_aset_ne h12]
    exact aget_aset_self h _

theorem bcZeroStep_write2 {len : ℕ} {t1 t2 : ℤ} {c : ℤ → F} (h : inb len t2) :
    aget len (bcZeroStep len t1 t2 c) t2 = F.num 0 := aget_aset_self h _

theorem zfold_pres {α : Type} {len : ℕ} {T1 T2 : α → ℤ} (L : List α) (c : ℤ → F)
    {i : ℤ} (h : aget len c i = F.num 0) :
    aget len (L.foldl (fun c a => bcZeroStep len (T1 a) (T2 a) c) c) i = F.num 0 := by
  induction L generalizing c with
  | nil => exact h
  | cons b L ih =>
    apply ih
    rcases @bcZeroStep_zero_or_same len (T1 b) (T2 b) i c with h' | h'
    · exact h'
    · rw [h']; exact h

theorem zfold_frame {α : Type} {len : ℕ} {T1 T2 : α → ℤ} (L : List α) (c : ℤ → F)
    {i : ℤ} (h : ∀ a ∈ L, i ≠ T1 a ∧ i ≠ T2 a) :
    L.foldl (fun c a => bcZeroStep len (T1 a) (T2 a) c) c i = c i := by
  induction L generalizing c with
  | nil => rfl
  | cons b L ih =>
    have hb := h b (List.mem_cons_self b L)
    rw [List.foldl_cons, ih _ (fun a ha => h a (List.mem_cons_of_mem _ ha)),
      bcZeroStep_frame hb.1 hb.2]

theorem zfold_zero {α : Type} {len : ℕ} {T1 T2 : α → ℤ} (L : List α) (c : ℤ → F)
    {a : α} (ha : a ∈ L) :
    (inb len (T1 a) → aget len (L.foldl (fun c a => bcZeroStep len (T1 a) (T2 a) c) c) (T1 a)
      = F.num 0) ∧
    (inb len (T2 a) → aget len (L.foldl (fun c a => bcZeroStep len (T1 a) (T2 a) c) c) (T2 a)
      = F.num 0) := by
  induction L generalizing c with
  | nil => exact absurd ha (List.not_mem_nil a)
  | cons b L ih =>
    rcases List.mem_cons.mp ha with rfl | ha'
    · exact ⟨fun h => zfold_pres L _ (bcZeroStep_write1 h),
        fun h => zfold_pres L _ (bcZeroStep_write2 h)⟩
    · exact ih _ ha'

theorem bcStep_frame {len : ℕ} {t1 s1 t2 s2 i : ℤ} {c : ℤ → F}
    (h1 : i ≠ t1) (h2 : i ≠ t2) : bcStep len t1 s1 t2 s2 c i = c i := by
  unfold bcStep
  rw [aset_apply_ne h2, aset_apply_ne h1]

/-- Behavior of one reflective-boundary iteration at its own two targets:
target 1 receives the value read at `s1`, then target 2 receives the value
read at `s2` from the once-updated array (which equals the original value
when `s2` differs from `t1`). -/
theorem bcStep_writes {len : ℕ} {t1 s1 t2 s2 : ℤ} {c : ℤ → F}
    (h12 : t1 ≠ t2) (hs2 : s2 ≠ t1) (h1 : inb len t1) (h2 : inb len t2) :
    aget len (bcStep len t1 s1 t2 s2 c) t1 = aget len c s1 ∧
    aget len (bcStep len t1 s1 t2 s2 c) t2 = aget len c s2 := by
  unfold bcStep
  constructor
  · rw [aget_aset_ne h12, aget_aset_self h1]
  · rw [aget_aset_self h2, aget_congr (aset_apply_ne hs2 _)]

/-- Spec of a fold of reflective-boundary copy steps: provided no read
index is ever a write target and the write targets of distinct iterations
are distinct, every target ends with the value the initial array held at
its read index, and everything else is untouched. -/
theorem cfold_spec {α : Type} {len : ℕ} {T1 T2 S1 S2 : α → ℤ} (L : List α) (c : ℤ → F)
    (hRS : ∀ a ∈ L, ∀ b ∈ L, S1 a ≠ T1 b ∧ S1 a ≠ T2 b ∧ S2 a ≠ T1 b ∧ S2 a ≠ T2 b)
    (hTT : ∀ a ∈ L, ∀ b ∈ L, T1 a ≠ T2 b)
    (hTT1 : ∀ a ∈ L, ∀ b ∈ L, a ≠ b → T1 a ≠ T1 b ∧ T2 a ≠ T2 b)
    (hnd : L.Nodup)
    (hTin : ∀ a ∈ L, inb len (T1 a) ∧ inb len (T2 a)) :
    (∀ a ∈ L,
      aget len (L.foldl (fun c a => bcStep len (T1 a) (S1 a) (T2 a) (S2 a) c) c) (T1 a)
        = aget len c (S1 a) ∧
      aget len (L.foldl (fun c a => bcStep len (T1 a) (S1 a) (T2 a) (S2 a) c) c) (T2 a)
        = aget len c (S2 a)) ∧
    (∀ i, (∀ a ∈ L, i ≠ T1 a ∧ i ≠ T2 a) →
      L.foldl (fun c a => bcStep len (T1 a) (S1 a) (T2 a) (S2 a) c) c i = c i) := by
  induction L generalizing c with
  | nil =>
    exact ⟨fun a ha => absurd ha (List.not_mem_nil a), fun i _ => rfl⟩
  | cons b L ih =>
    have hbL : b ∈ b :: L := List.mem_cons_self b L
    have hbnotL : b ∉ L := (List.nodup_cons.mp hnd).1
    have ihL := ih (bcStep len (T1 b) (S1 b) (T2 b) (S2 b) c)
      (fun a ha => fun b' hb' => hRS a (List.mem_cons_of_mem _ ha) b' (List.mem_cons_of_mem _ hb'))
      (fun a ha => fun b' hb' => hTT a (List.mem_cons_of_mem _ ha) b' (List.mem_cons_of_mem _ hb'))
      (fun a ha => fun b' hb' hne =>
        hTT1 a (List.mem_cons_of_mem _ ha) b' (List.mem_cons_of_mem _ hb') hne)
      (List.nodup_cons.mp hnd).2
      (fun a ha => hTin a (List.mem_cons_of_mem _ ha))
    have hwb := @bcStep_writes len (T1 b) (S1 b) (T2 b) (S2 b) c
      (hTT b hbL b hbL)
      (hRS b hbL b hbL).2.2.1
      (hTin b hbL).1 (hTin b hbL).2
    constructor
    · intro a ha
      rcases List.mem_cons.mp ha with rfl | ha'
      · -- head element: its targets are untouched by the tail fold
        have hf1 : ∀ a' ∈ L, T1 a ≠ T1 a' ∧ T1 a ≠ T2 a' := by
          intro a' ha'
          exact ⟨(hTT1 a hbL a' (List.mem_cons_of_mem _ ha')
              (fun he => hbnotL (he ▸ ha'))).1,
            hTT a hbL a' (List.mem_cons_of_mem _ ha')⟩
        have hf2 : ∀ a' ∈ L, T2 a ≠ T1 a' ∧ T2 a ≠ T2 a' := by
          intro a' ha'
          exact ⟨(hTT a' (List.mem_cons_of_mem _ ha') a hbL).symm,
            (hTT1 a hbL a' (List.mem_cons_of_mem _ ha')
              (fun he => hbnotL (he ▸ ha'))).2⟩
        rw [List.foldl_cons]
        constructor
        · rw [aget_congr (ihL.2 _ hf1)]
          exact hwb.1
        · rw [aget_congr (ihL.2 _ hf2)]
          exact hwb.2
      · -- tail element: reads are unaffected by the head iteration
        rw [List.foldl_cons]
        have hr := hRS a (List.mem_cons_of_mem _ ha') b hbL
        constructor
        · rw [(ihL.1 a ha').1, aget_congr (bcStep_frame hr.1 hr.2.1)]
        · rw [(ihL.1 a ha').2, aget_congr (bcStep_frame hr.2.2.1 hr.2.2.2)]
    · intro i hi
      rw [List.foldl_cons, ihL.2 i (fun a ha => hi a (List.mem_cons_of_mem _ ha)),
        bcStep_frame (hi b hbL).1 (hi b hbL).2]

/-- Every in-bounds index decomposes uniquely as a row-major cell index. -/
theorem idx_decomp {cols rows : ℕ} {i : ℤ} (h : inb (cols * rows) i) :
    ∃ x y : ℤ, 0 ≤ x ∧ x < (cols : ℤ) ∧ 0 ≤ y ∧ y < (rows : ℤ) ∧
      i = getIndex cols x y := by
  obtain ⟨h0, h1⟩ := h
  have hcols : (0 : ℤ) < cols := by
    rcases Nat.eq_zero_or_pos cols with hc | hc
    · subst hc
      simp at h1
      omega
    · exact_mod_cast hc
  refine ⟨i % (cols : ℤ), i / (cols : ℤ), Int.emod_nonneg i (by omega),
    Int.emod_lt_of_pos i hcols, Int.ediv_nonneg h0 hcols.le, ?_, ?_⟩
  · rw [Int.ediv_lt_iff_lt_mul hcols]
    calc i < ((cols * rows : ℕ) : ℤ) := h1
    _ = (rows : ℤ) * (cols : ℤ) := by push_cast; ring
  · show i = i / (cols : ℤ) * (cols : ℤ) + i % (cols : ℤ)
    rw [mul_comm]
    exact (Int.ediv_add_emod i (cols : ℤ)).symm

/-- After the absorbing boundary pass, every edge cell reads `0`. -/
theorem applyBC_absorbing_edge (cols rows : ℕ) (cur : ℤ → F) {x y : ℤ}
    (hx : 0 ≤ x) (hx' : x < (cols : ℤ)) (hy : 0 ≤ y) (hy' : y < (rows : ℤ))
    (hedge : x = 0 ∨ x = (cols : ℤ) - 1 ∨ y = 0 ∨ y = (rows : ℤ) - 1) :
    aget (cols * rows) (applyBC false cols rows (cols * rows) cur) (getIndex cols x y)
      = F.num 0 := by
  have hc0 : (0 : ℤ) < cols := lt_of_le_of_lt hx hx'
  have hr0 : (0 : ℤ) < rows := lt_of_le_of_lt hy hy'
  show aget (cols * rows)
    ((List.range rows).foldl
      (fun c (y' : ℕ) => bcZeroStep (cols * rows) (getIndex cols 0 (y' : ℤ))
        (getIndex cols ((cols : ℤ) - 1) (y' : ℤ)) c)
      ((List.range cols).foldl
        (fun c (x' : ℕ) => bcZeroStep (cols * rows) (getIndex cols (x' : ℤ) 0)
          (getIndex cols (x' : ℤ) ((rows : ℤ) - 1)) c)
        cur))
    (getIndex cols x y) = F.num 0
  by_cases hx0 : x = 0
  · subst hx0
    have hmem : y.toNat ∈ List.range rows := List.mem_range.mpr (by omega)
    have hz := (@zfold_zero ℕ (cols * rows)
      (fun y' : ℕ => getIndex cols 0 (y' : ℤ))
      (fun y' : ℕ => getIndex cols ((cols : ℤ) - 1) (y' : ℤ))
      (List.range rows)
      ((List.range cols).foldl
        (fun c (x' : ℕ) => bcZeroStep (cols * rows) (getIndex cols (x' : ℤ) 0)
          (getIndex cols (x' : ℤ) ((rows : ℤ) - 1)) c)
        cur)
      y.toNat hmem).1
    simp only [Int.toNat_of_nonneg hy] at hz
    exact hz (getIndex_inb (le_refl 0) hc0 hy hy')
  · by_cases hx1 : x = (cols : ℤ) - 1
    · subst hx1
      have hmem : y.toNat ∈ List.range rows := List.mem_range.mpr (by omega)
      have hz := (@zfold_zero ℕ (cols * rows)
        (fun y' : ℕ => getIndex cols 0 (y' : ℤ))
        (fun y' : ℕ => getIndex cols ((cols : ℤ) - 1) (y' : ℤ))
        (List.range rows)
        ((List.range cols).foldl
          (fun c (x' : ℕ) => bcZeroStep (cols * rows) (getIndex cols (x' : ℤ) 0)
            (getIndex cols (x' : ℤ) ((rows : ℤ) - 1)) c)
          cur)
        y.toNat hmem).2
      simp only [Int.toNat_of_nonneg hy] at hz
      exact hz (getIndex_inb (by omega) (by omega) hy hy')
    · -- x strictly between the two boundary columns: the column pass
      -- leaves the cell alone, and the row pass zeroed it
      have hframe : ∀ a ∈ List.range rows,
          getIndex cols x y ≠ getIndex cols 0 (a : ℤ) ∧
          getIndex cols x y ≠ getIndex cols ((cols : ℤ) - 1) (a : ℤ) := by
        intro a _
        exact ⟨getIndex_ne hx hx' (le_refl 0) hc0 (Or.inl hx0),
          getIndex_ne hx hx' (by omega) (by omega) (Or.inl hx1)⟩
      rw [aget_congr (zfold_frame (List.range rows) _ hframe)]
      have hyedge : y = 0 ∨ y = (rows : ℤ) - 1 := by
        rcases hedge with h | h | h | h
        · exact absurd h hx0
        · exact absurd h hx1
        · exact Or.inl h
        · exact Or.inr h
      have hmem : x.toNat ∈ List.range cols := List.mem_range.mpr (by omega)
      have hz := @zfold_zero ℕ (cols * rows)
        (fun x' : ℕ => getIndex cols (x' : ℤ) 0)
        (fun x' : ℕ => getIndex cols (x' : ℤ) ((rows : ℤ) - 1))
        (List.range cols) cur x.toNat hmem
      simp only [Int.toNat_of_nonneg hx] at hz
      rcases hyedge with rfl | hyr
      · exact hz.1 (getIndex_inb hx hx' (le_refl 0) hr0)
      · subst hyr
        exact hz.2 (getIndex_inb hx hx' (by omega) (by omega))

/-- On a grid with a nonempty interior, if every interior cell of `cur`
holds a value in `[-50, 50]`, then after either boundary pass every cell
does: absorbing mode writes zeros, and reflective mode copies values that
originate in the interior. -/
theorem applyBC_inr (refl : Bool) (cols rows : ℕ) (hc : 3 ≤ cols) (hr : 3 ≤ rows)
    (c : ℤ → F)
    (hint : ∀ x y : ℤ, 1 ≤ x → x + 1 < (cols : ℤ) → 1 ≤ y → y + 1 < (rows : ℤ) →
      InR (aget (cols * rows) c (getIndex cols x y)))
    {i : ℤ} (hi : inb (cols * rows) i) :
    InR (aget (cols * rows) (applyBC refl cols rows (cols * rows) c) i) := by
  obtain ⟨x, y, hx, hx', hy, hy', rfl⟩ := idx_decomp hi
  have hcZ : (3 : ℤ) ≤ (cols : ℤ) := by exact_mod_cast hc
  have hrZ : (3 : ℤ) ≤ (rows : ℤ) := by exact_mod_cast hr
  cases refl with
  | false =>
    by_cases hedge : x = 0 ∨ x = (cols : ℤ) - 1 ∨ y = 0 ∨ y = (rows : ℤ) - 1
    · rw [applyBC_absorbing_edge cols rows c hx hx' hy hy' hedge]
      exact InR_zero
    · push_neg at hedge
      obtain ⟨hx0, hx1, hy0, hy1⟩ := hedge
      have hcol : ∀ a ∈ List.range rows,
          getIndex cols x y ≠ getIndex cols 0 (a : ℤ) ∧
          getIndex cols x y ≠ getIndex cols ((cols : ℤ) - 1) (a : ℤ) := by
        intro a _
        exact ⟨getIndex_ne hx hx' (by omega) (by omega) (Or.inl hx0),
          getIndex_ne hx hx' (by omega) (by omega) (Or.inl hx1)⟩
      have hrow : ∀ a ∈ List.range cols,
          getIndex cols x y ≠ getIndex cols (a : ℤ) 0 ∧
          getIndex cols x y ≠ getIndex cols (a : ℤ) ((rows : ℤ) - 1) := by
        intro a ha
        have haZ : (a : ℤ) < (cols : ℤ) := by exact_mod_cast List.mem_range.mp ha
        exact ⟨getIndex_ne hx hx' (by omega) haZ (Or.inr hy0),
          getIndex_ne hx hx' (by omega) haZ (Or.inr hy1)⟩
      have e1 : applyBC false cols rows (cols * rows) c (getIndex cols x y)
          = absRowPass cols rows (cols * rows) c (getIndex cols x y) :=
        zfold_frame (List.range rows) _ hcol
      have e2 : absRowPass cols rows (cols * rows) c (getIndex cols x y)
          = c (getIndex cols x y) :=
        zfold_frame (List.range cols) _ hrow
      rw [aget_congr (e1.trans e2)]
      exact hint x y (by omega) (by omega) (by omega) (by omega)
  | true =>
    have rSpec := @cfold_spec ℕ (cols * rows)
      (fun a : ℕ => getIndex cols (a : ℤ) 0)
      (fun a : ℕ => getIndex cols (a : ℤ) ((rows : ℤ) - 1))
      (fun a : ℕ => getIndex cols (a : ℤ) 1)
      (fun a : ℕ => getIndex cols (a : ℤ) ((rows : ℤ) - 2))
      (List.range cols) c
      (by
        intro a ha b hb
        have haZ : (a : ℤ) < (cols : ℤ) := by exact_mod_cast List.mem_range.mp ha
        have hbZ : (b : ℤ) < (cols : ℤ) := by exact_mod_cast List.mem_range.mp hb
        exact ⟨getIndex_ne (by omega) haZ (by omega) hbZ (Or.inr (by omega)),
          getIndex_ne (by omega) haZ (by omega) hbZ (Or.inr (by omega)),
          getIndex_ne (by omega) haZ (by omega) hbZ (Or.inr (by omega)),
          getIndex_ne (by omega) haZ (by omega) hbZ (Or.inr (by omega))⟩)
      (by
        intro a ha b hb
        have haZ : (a : ℤ) < (cols : ℤ) := by exact_mod_cast List.mem_range.mp ha
        have hbZ : (b : ℤ) < (cols : ℤ) := by exact_mod_cast List.mem_range.mp hb
        exact getIndex_ne (by omega) haZ (by omega) hbZ (Or.inr (by omega)))
      (by
        intro a ha b hb hne
        have haZ : (a : ℤ) < (cols : ℤ) := by exact_mod_cast List.mem_range.mp ha
        have hbZ : (b : ℤ) < (cols : ℤ) := by exact_mod_cast List.mem_range.mp hb
        have hneZ : (a : ℤ) ≠ (b : ℤ) := by exact_mod_cast hne
        exact ⟨getIndex_ne (by omega) haZ (by omega) hbZ (Or.inl hneZ),
          getIndex_ne (by omega) haZ (by omega) hbZ (Or.inl hneZ)⟩)
      (List.nodup_range _)
      (by
        intro a ha
        have haZ : (a : ℤ) < (cols : ℤ) := by exact_mod_cast List.mem_range.mp ha
        exact ⟨getIndex_inb (by omega) haZ (by omega) (by omega),
          getIndex_inb (by omega) haZ (by omega) (by omega)⟩)
    have hr1 : ∀ a : ℕ, a ∈ List.range cols →
        aget (cols * rows) (reflRowPass cols rows (cols * rows) c)
            (getIndex cols (a : ℤ) 0)
          = aget (cols * rows) c (getIndex cols (a : ℤ) 1) ∧
        aget (cols * rows) (reflRowPass cols rows (cols * rows) c)
            (getIndex cols (a : ℤ) ((rows : ℤ) - 1))
          = aget (cols * rows) c (getIndex cols (a : ℤ) ((rows : ℤ) - 2)) := rSpec.1
    have hrframe : ∀ i : ℤ,
        (∀ a ∈ List.range cols, i ≠ getIndex cols (a : ℤ) 0 ∧
          i ≠ getIndex cols (a : ℤ) ((rows : ℤ) - 1)) →
        reflRowPass cols rows (cols * rows) c i = c i := rSpec.2
    have cSpec := @cfold_spec ℕ (cols * rows)
      (fun a : ℕ => getIndex cols 0 (a : ℤ))
      (fun a : ℕ => getIndex cols ((cols : ℤ) - 1) (a : ℤ))
      (fun a : ℕ => getIndex cols 1 (a : ℤ))
      (fun a : ℕ => getIndex cols ((cols : ℤ) - 2) (a : ℤ))
      (List.range rows) (reflRowPass cols rows (cols * rows) c)
      (by
        intro a _ b _
        exact ⟨getIndex_ne (by omega) (by omega) (by omega) (by omega) (Or.inl (by omega)),
          getIndex_ne (by omega) (by omega) (by omega) (by omega) (Or.inl (by omega)),
          getIndex_ne (by omega) (by omega) (by omega) (by omega) (Or.inl (by omega)),
          getIndex_ne (by omega) (by omega) (by omega) (by omega) (Or.inl (by omega))⟩)
      (by
        intro a _ b _
        exact getIndex_ne (by omega) (by omega) (by omega) (by omega) (Or.inl (by omega)))
      (by
        intro a ha b hb hne
        have hneZ : (a : ℤ) ≠ (b : ℤ) := by exact_mod_cast hne
        exact ⟨getIndex_ne (by omega) (by omega) (by omega) (by omega) (Or.inr hneZ),
          getIndex_ne (by omega) (by omega) (by omega) (by omega) (Or.inr hneZ)⟩)
      (List.nodup_range _)
      (by
        intro a ha
        have haZ : (a : ℤ) < (rows : ℤ) := by exact_mod_cast List.mem_range.mp ha
        exact ⟨getIndex_inb (by omega) (by omega) (by omega) haZ,
          getIndex_inb (by omega) (by omega) (by omega) haZ⟩)
    have hc1 : ∀ a : ℕ, a ∈ List.range rows →
        aget (cols * rows) (applyBC true cols rows (cols * rows) c)
            (getIndex cols 0 (a : ℤ))
          = aget (cols * rows) (reflRowPass cols rows (cols * rows) c)
            (getIndex cols 1 (a : ℤ)) ∧
        aget (cols * rows) (applyBC true cols rows (cols * rows) c)
            (getIndex cols ((cols : ℤ) - 1) (a : ℤ))
          = aget (cols * rows) (reflRowPass cols rows (cols * rows) c)
            (getIndex cols ((cols : ℤ) - 2) (a : ℤ)) := cSpec.1
    have hcframe : ∀ i : ℤ,
        (∀ a ∈ List.range rows, i ≠ getIndex cols 0 (a : ℤ) ∧
          i ≠ getIndex cols ((cols : ℤ) - 1) (a : ℤ)) →
        applyBC true cols rows (cols * rows) c i
          = reflRowPass cols rows (cols * rows) c i := cSpec.2
    -- every cell of the row pass with x strictly interior is in range
    have Hc1 : ∀ x' y' : ℤ, 1 ≤ x' → x' + 1 < (cols : ℤ) → 0 ≤ y' → y' < (rows : ℤ) →
        InR (aget (cols * rows) (reflRowPass cols rows (cols * rows) c)
          (getIndex cols x' y')) := by
      intro x' y' h1 h2 h3 h4
      by_cases hy0 : y' = 0
      · subst hy0
        have hm := hr1 x'.toNat (List.mem_range.mpr (by omega))
        simp only [Int.toNat_of_nonneg (by omega : (0 : ℤ) ≤ x')] at hm
        rw [hm.1]
        exact hint x' 1 h1 h2 (le_refl 1) (by omega)
      · by_cases hyr : y' = (rows : ℤ) - 1
        · have hm := hr1 x'.toNat (List.mem_range.mpr (by omega))
          simp only [Int.toNat_of_nonneg (by omega : (0 : ℤ) ≤ x')] at hm
          rw [hyr, hm.2]
          exact hint x' ((rows : ℤ) - 2) h1 h2 (by omega) (by omega)
        · have hfr : ∀ a ∈ List.range cols,
              getIndex cols x' y' ≠ getIndex cols (a : ℤ) 0 ∧
              getIndex cols x' y' ≠ getIndex cols (a : ℤ) ((rows : ℤ) - 1) := by
            intro a ha
            have haZ : (a : ℤ) < (cols : ℤ) := by exact_mod_cast List.mem_range.mp ha
            exact ⟨getIndex_ne (by omega) (by omega) (by omega) haZ (Or.inr hy0),
              getIndex_ne (by omega) (by omega) (by omega) haZ (Or.inr hyr)⟩
          rw [aget_congr (hrframe _ hfr)]
          exact hint x' y' h1 h2 (by omega) (by omega)
    by_cases hx0 : x = 0
    · subst hx0
      have hm := hc1 y.toNat (List.mem_range.mpr (by omega))
      simp only [Int.toNat_of_nonneg hy] at hm
      rw [hm.1]
      exact Hc1 1 y (le_refl 1) (by omega) hy hy'
    · by_cases hx1 : x = (cols : ℤ) - 1
      · have hm := hc1 y.toNat (List.mem_range.mpr (by omega))
        simp only [Int.toNat_of_nonneg hy] at hm
        rw [hx1, hm.2]
        exact Hc1 ((cols : ℤ) - 2) y (by omega) (by omega) hy hy'
      · have hfr : ∀ a ∈ List.range rows,
            getIndex cols x y ≠ getIndex cols 0 (a : ℤ) ∧
            getIndex cols x y ≠ getIndex cols ((cols : ℤ) - 1) (a : ℤ) := by
          intro a _
          exact ⟨getIndex_ne (by omega) (by omega) (by omega) (by omega) (Or.inl hx0),
            getIndex_ne (by omega) (by omega) (by omega) (by omega) (Or.inl hx1)⟩
        rw [aget_congr (hcframe _ hfr)]
        exact Hc1 x y (by omega) (by omega) hy hy'

theorem injectField_pos {o : MathO} {time : ℚ} {cols rows len : ℕ} {cur : ℤ → F} {src : Src}
    (hb : 0 ≤ roundJ src.x ∧ roundJ src.x < (cols : ℤ) ∧
      0 ≤ roundJ src.y ∧ roundJ src.y < (rows : ℤ)) :
    injectField o time cols rows len cur src =
      aset len cur (roundJ src.y * (cols : ℤ) + roundJ src.x)
        ((aget len cur (roundJ src.y * (cols : ℤ) + roundJ src.x)).add
          (F.num (src.amplitude *
            o.sinO (time * (src.frequency + (src.vx.getD 0) * (1/1000)) + src.phase)))) := by
  simp [injectField, hb]

theorem injectField_neg {o : MathO} {time : ℚ} {cols rows len : ℕ} {cur : ℤ → F} {src : Src}
    (hb : ¬(0 ≤ roundJ src.x ∧ roundJ src.x < (cols : ℤ) ∧
      0 ≤ roundJ src.y ∧ roundJ src.y < (rows : ℤ))) :
    injectField o time cols rows len cur src = cur := by
  simp only [injectField]
  rw [if_neg hb]

/-- Source injection never changes whether a cell is finite: it only adds a
finite rational. -/
theorem injectField_class (o : MathO) (time : ℚ) (cols rows : ℕ) (cur : ℤ → F) (src : Src)
    (i : ℤ) :
    (aget (cols * rows) (injectField o time cols rows (cols * rows) cur src) i).isFinite
      = (aget (cols * rows) cur i).isFinite := by
  by_cases hb : 0 ≤ roundJ src.x ∧ roundJ src.x < (cols : ℤ) ∧
      0 ≤ roundJ src.y ∧ roundJ src.y < (rows : ℤ)
  · rw [injectField_pos hb]
    by_cases hi : i = roundJ src.y * (cols : ℤ) + roundJ src.x
    · subst hi
      have hinb : inb (cols * rows) (roundJ src.y * (cols : ℤ) + roundJ src.x) :=
        getIndex_inb hb.1 hb.2.1 hb.2.2.1 hb.2.2.2
      rw [aget_aset_self hinb]
      exact F.add_num_class _ _
    · rw [aget_aset_ne hi]
  · rw [injectField_neg hb]

theorem injFold_class (o : MathO) (time dt : ℚ) (cols rows : ℕ) (srcs : List Src)
    (acc : (ℤ → F) × List Src) (i : ℤ) :
    (aget (cols * rows)
      (srcs.foldl (injectMoveOne o time dt cols rows (cols * rows)) acc).1 i).isFinite
      = (aget (cols * rows) acc.1 i).isFinite := by
  induction srcs generalizing acc with
  | nil => rfl
  | cons src srcs ih =>
    rw [List.foldl_cons, ih]
    unfold injectMoveOne
    split
    · rfl
    · exact injectField_class o time cols rows acc.1 src i

theorem injectMoveOne_snd (o : MathO) (time dt : ℚ) (cols rows len : ℕ)
    (acc : (ℤ → F) × List Src) (src : Src) :
    (injectMoveOne o time dt cols rows len acc src).2 = acc.2 ++ [moveSrc dt src] := by
  unfold injectMoveOne moveSrc
  split <;> rfl

theorem injFold_snd (o : MathO) (time dt : ℚ) (cols rows len : ℕ) (srcs : List Src)
    (acc : (ℤ → F) × List Src) :
    (srcs.foldl (injectMoveOne o time dt cols rows len) acc).2
      = acc.2 ++ srcs.map (moveSrc dt) := by
  induction srcs generalizing acc with
  | nil => simp
  | cons src srcs ih =>
    rw [List.foldl_cons, ih]
    have h2 := injectMoveOne_snd o time dt cols rows len acc src
    rw [show (injectMoveOne o time dt cols rows len acc src).2 = acc.2 ++ [moveSrc dt src]
      from h2]
    simp

theorem substep_grid (d : ℚ) (s : Sim) :
    (substep d s).cols = s.cols ∧ (substep d s).rows = s.rows ∧
    (substep d s).cellSize = s.cellSize ∧ (substep d s).waveSpeed = s.waveSpeed ∧
    (substep d s).damping = s.damping ∧ (substep d s).dt = s.dt ∧
    (substep d s).sources = s.sources ∧ (substep d s).walls = s.walls ∧
    (substep d s).reflectiveBoundaries = s.reflectiveBoundaries ∧
    (substep d s).wallMask = s.wallMask ∧ (substep d s).energyMap = s.energyMap ∧
    (substep d s).velocity = s.velocity ∧
    (substep d s).energyTrailEnabled = s.energyTrailEnabled := by
  exact ⟨rfl, rfl, rfl, rfl, rfl, rfl, rfl, rfl, rfl, rfl, rfl, rfl, rfl⟩

/-- One sub-step from a finite field on a grid with interior: the resulting
`current` is everywhere in `[-50, 50]` and `previous` stays finite. -/
theorem substep_inr (d : ℚ) (s : Sim) (hc : 3 ≤ s.cols) (hr : 3 ≤ s.rows)
    (h1 : AllFin s.len s.current) (h2 : AllFin s.len s.previous) :
    (∀ i, inb s.len i → InR (aget s.len (substep d s).current i)) ∧
    AllFin s.len (substep d s).previous := by
  have hsw := @sweepFold_invariant s.cols s.rows s.wallMask
    (s.waveSpeed * s.waveSpeed * (d * d)) s.damping
    (interiorCells s.rows s.cols) (s.current, s.previous) []
    (fun yx h => h) h1 h2 (fun i hi => absurd hi (List.not_mem_nil i))
  constructor
  · intro i hi
    have hint : ∀ x y : ℤ, 1 ≤ x → x + 1 < (s.cols : ℤ) → 1 ≤ y → y + 1 < (s.rows : ℤ) →
        InR (aget (s.cols * s.rows)
          ((interiorCells s.rows s.cols).foldl
            (sweepCell (s.cols * s.rows) s.cols s.wallMask
              (s.waveSpeed * s.waveSpeed * (d * d)) s.damping)
            (s.current, s.previous)).1 (getIndex s.cols x y)) := by
      intro x y hx hx' hy hy'
      apply hsw.2.2
      refine Or.inr ⟨(y.toNat, x.toNat), ?_, ?_⟩
      · apply mem_interiorCells.mpr
        refine ⟨by omega, by omega, by omega, by omega⟩
      · unfold getIndex idxZ
        simp only [Int.toNat_of_nonneg (by omega : (0 : ℤ) ≤ y),
          Int.toNat_of_nonneg (by omega : (0 : ℤ) ≤ x)]
    exact applyBC_inr s.reflectiveBoundaries s.cols s.rows hc hr _ hint hi
  · exact hsw.2.1

/-- Iterating at least one sub-step from a finite field keeps the grid
shape, keeps both arrays finite, and ends with `current` in range. -/
theorem iterate_substep_spec (d : ℚ) (k : ℕ) (s : Sim) (hc : 3 ≤ s.cols) (hr : 3 ≤ s.rows)
    (h1 : AllFin s.len s.current) (h2 : AllFin s.len s.previous) :
    ((substep d)^[k] s).cols = s.cols ∧ ((substep d)^[k] s).rows = s.rows ∧
    AllFin s.len ((substep d)^[k] s).current ∧ AllFin s.len ((substep d)^[k] s).previous ∧
    (1 ≤ k → ∀ i, inb s.len i → InR (aget s.len ((substep d)^[k] s).current i)) := by
  induction k with
  | zero => exact ⟨rfl, rfl, h1, h2, fun h => absurd h (by omega)⟩
  | succ k ih =>
    obtain ⟨ihc, ihr, ihf1, ihf2, _⟩ := ih
    have hlen : ((substep d)^[k] s).len = s.len := by
      unfold Sim.len
      rw [ihc, ihr]
    have hstep := substep_inr d ((substep d)^[k] s) (ihc ▸ hc) (ihr ▸ hr)
      (hlen ▸ ihf1) (hlen ▸ ihf2)
    have hit : (substep d)^[k + 1] s = substep d ((substep d)^[k] s) :=
      Function.iterate_succ_apply' (substep d) k s
    refine ⟨by rw [hit, (substep_grid d _).1, ihc],
      by rw [hit, (substep_grid d _).2.1, ihr], ?_, ?_, ?_⟩
    · rw [hit]
      intro i hi
      exact InR_fin ((hlen ▸ hstep.1) i hi)
    · rw [hit]
      exact hlen ▸ hstep.2
    · intro _ i hi
      rw [hit]
      exact (hlen ▸ hstep.1) i hi

theorem rebuildWallMask_fields (s : Sim) :
    (rebuildWallMask s).cols = s.cols ∧ (rebuildWallMask s).rows = s.rows ∧
    (rebuildWallMask s).current = s.current ∧ (rebuildWallMask s).previous = s.previous ∧
    (rebuildWallMask s).velocity = s.velocity ∧ (rebuildWallMask s).energyMap = s.energyMap ∧
    (rebuildWallMask s).sources = s.sources ∧ (rebuildWallMask s).walls = s.walls ∧
    (rebuildWallMask s).cellSize = s.cellSize ∧ (rebuildWallMask s).waveSpeed = s.waveSpeed ∧
    (rebuildWallMask s).damping = s.damping ∧ (rebuildWallMask s).dt = s.dt ∧
    (rebuildWallMask s).reflectiveBoundaries = s.reflectiveBoundaries ∧
    (rebuildWallMask s).energyTrailEnabled = s.energyTrailEnabled ∧
    (rebuildWallMask s).energyDecay = s.energyDecay := by
  unfold rebuildWallMask
  split
  · exact ⟨rfl, rfl, rfl, rfl, rfl, rfl, rfl, rfl, rfl, rfl, rfl, rfl, rfl, rfl, rfl⟩
  · split <;>
      exact ⟨rfl, rfl, rfl, rfl, rfl, rfl, rfl, rfl, rfl, rfl, rfl, rfl, rfl, rfl, rfl⟩

theorem energyUpdate_fields (s : Sim) :
    (energyUpdate s).current = s.current ∧ (energyUpdate s).previous = s.previous ∧
    (energyUpdate s).velocity = s.velocity ∧ (energyUpdate s).sources = s.sources ∧
    (energyUpdate s).cols = s.cols ∧ (energyUpdate s).rows = s.rows ∧
    (energyUpdate s).walls = s.walls ∧ (energyUpdate s).wallMask = s.wallMask ∧
    (energyUpdate s).cellSize = s.cellSize ∧ (energyUpdate s).waveSpeed = s.waveSpeed ∧
    (energyUpdate s).damping = s.damping ∧ (energyUpdate s).dt = s.dt ∧
    (energyUpdate s).reflectiveBoundaries = s.reflectiveBoundaries := by
  unfold energyUpdate
  split <;>
    exact ⟨rfl, rfl, rfl, rfl, rfl, rfl, rfl, rfl, rfl, rfl, rfl, rfl, rfl⟩

theorem guard_fields (s : Sim) :
    (stabilityGuard s).cols = s.cols ∧ (stabilityGuard s).rows = s.rows ∧
    (stabilityGuard s).sources = s.sources ∧ (stabilityGuard s).walls = s.walls ∧
    (stabilityGuard s).wallMask = s.wallMask ∧ (stabilityGuard s).energyMap = s.energyMap ∧
    (stabilityGuard s).cellSize = s.cellSize ∧ (stabilityGuard s).waveSpeed = s.waveSpeed ∧
    (stabilityGuard s).damping = s.damping ∧ (stabilityGuard s).dt = s.dt ∧
    (stabilityGuard s).reflectiveBoundaries = s.reflectiveBoundaries ∧
    (stabilityGuard s).energyTrailEnabled = s.energyTrailEnabled ∧
    (stabilityGuard s).energyDecay = s.energyDecay := by
  unfold stabilityGuard
  split <;>
    exact ⟨rfl, rfl, rfl, rfl, rfl, rfl, rfl, rfl, rfl, rfl, rfl, rfl, rfl⟩

theorem guard_inr (s : Sim) (h : ∀ i, inb s.len i → InR (aget s.len s.current i)) :
    ∀ i, inb s.len i → InR (aget s.len (stabilityGuard s).current i) := by
  unfold stabilityGuard
  split
  · intro i hi
    rw [aget_afill hi]
    exact InR_zero
  · exact h

theorem sourcePhase_fields (o : MathO) (time : ℚ) (s : Sim) :
    (sourcePhase o time s).cols = s.cols ∧ (sourcePhase o time s).rows = s.rows ∧
    (sourcePhase o time s).previous = s.previous ∧
    (sourcePhase o time s).velocity = s.velocity ∧
    (sourcePhase o time s).cellSize = s.cellSize ∧
    (sourcePhase o time s).waveSpeed = s.waveSpeed ∧
    (sourcePhase o time s).damping = s.damping ∧ (sourcePhase o time s).dt = s.dt ∧
    (sourcePhase o time s).reflectiveBoundaries = s.reflectiveBoundaries ∧
    (sourcePhase o time s).walls = s.walls ∧
    (sourcePhase o time s).energyTrailEnabled = s.energyTrailEnabled ∧
    (sourcePhase o time s).energyMap = s.energyMap ∧
    (sourcePhase o time s).sources = (s.sources.map (orbUpd o)).map (moveSrc s.dt) := by
  obtain ⟨rc, rr, rcur, rprev, rvel, rem, rsrc, rwalls, rcs, rws, rdamp, rdt, rrefl, ret,
    red⟩ := rebuildWallMask_fields s
  refine ⟨rc, rr, rprev, rvel, rcs, rws, rdamp, rdt, rrefl, rwalls, ret, rem, ?_⟩
  have h2 : (sourcePhase o time s).sources
      = [] ++ (((rebuildWallMask s).sources.map (orbUpd o)).map
          (moveSrc (rebuildWallMask s).dt)) :=
    injFold_snd o time (rebuildWallMask s).dt (rebuildWallMask s).cols
      (rebuildWallMask s).rows (rebuildWallMask s).len
      ((rebuildWallMask s).sources.map (orbUpd o)) ((rebuildWallMask s).current, [])
  rw [h2, rsrc, rdt, List.nil_append]

/-- `sourcePhase` does not change whether any cell of `current` is finite
(injection only adds finite rationals). -/
theorem sourcePhase_class (o : MathO) (time : ℚ) (s : Sim) (i : ℤ) :
    (aget (s.cols * s.rows) (sourcePhase o time s).current i).isFinite
      = (aget (s.cols * s.rows) s.current i).isFinite := by
  obtain ⟨rc, rr, rcur, _⟩ := rebuildWallMask_fields s
  have hclass : (aget ((rebuildWallMask s).cols * (rebuildWallMask s).rows)
        (sourcePhase o time s).current i).isFinite
      = (aget ((rebuildWallMask s).cols * (rebuildWallMask s).rows)
        (rebuildWallMask s).current i).isFinite :=
    injFold_class o time (rebuildWallMask s).dt (rebuildWallMask s).cols
      (rebuildWallMask s).rows ((rebuildWallMask s).sources.map (orbUpd o))
      ((rebuildWallMask s).current, []) i
  rw [rc, rr, rcur] at hclass
  exact hclass

theorem step_eq (o : MathO) (time : ℚ) (s : Sim) :
    step o time s = stabilityGuard (energyUpdate
      ((substep (s.dt / ((numSubSteps s.waveSpeed s.dt : ℤ) : ℚ)))^[(numSubSteps
        s.waveSpeed s.dt).toNat] (sourcePhase o time s))) := rfl

theorem numSubSteps_pos (ws dt : ℚ) : 1 ≤ numSubSteps ws dt := le_max_left 1 _

/-- Composite range result used by claim C4: one full `step` from a finite
field on a grid with a nonempty interior leaves every cell of `current`
in `[-50, 50]`. -/
theorem step_inr (o : MathO) (time : ℚ) (s : Sim) (hc : 3 ≤ s.cols) (hr : 3 ≤ s.rows)
    (h1 : AllFin s.len s.current) (h2 : AllFin s.len s.previous) :
    ∀ i, inb s.len i → InR (aget s.len (step o time s).current i) := by
  obtain ⟨spc, spr, spprev, _⟩ := sourcePhase_fields o time s
  have hsplen : (sourcePhase o time s).len = s.len := by
    unfold Sim.len
    rw [spc, spr]
  have hf1 : AllFin (sourcePhase o time s).len (sourcePhase o time s).current := by
    intro i hi
    rw [show (sourcePhase o time s).len = s.cols * s.rows from hsplen] at hi
    have := sourcePhase_class o time s i
    rw [show ((sourcePhase o time s).len : ℕ) = s.cols * s.rows from hsplen]
    rw [this]
    exact h1 i hi
  have hf2 : AllFin (sourcePhase o time s).len (sourcePhase o time s).previous := by
    rw [hsplen, spprev]
    exact h2
  have hit := iterate_substep_spec
    (s.dt / ((numSubSteps s.waveSpeed s.dt : ℤ) : ℚ))
    (numSubSteps s.waveSpeed s.dt).toNat
    (sourcePhase o time s) (spc ▸ hc) (spr ▸ hr) hf1 hf2
  have hk : 1 ≤ (numSubSteps s.waveSpeed s.dt).toNat := by
    have := numSubSteps_pos s.waveSpeed s.dt
    omega
  set t4 := (substep (s.dt / ((numSubSteps s.waveSpeed s.dt : ℤ) : ℚ)))^[(numSubSteps
    s.waveSpeed s.dt).toNat] (sourcePhase o time s) with ht4
  have ht4len : t4.len = s.len := by
    unfold Sim.len
    rw [hit.1, hit.2.1, spc, spr]
  have ht4inr : ∀ i, inb s.len i → InR (aget s.len t4.current i) := by
    intro i hi
    have := hit.2.2.2.2 hk i (by rw [hsplen]; exact hi)
    rwa [hsplen] at this
  obtain ⟨ecur, _, _, _, ecol, erow, _⟩ := energyUpdate_fields t4
  have helen : (energyUpdate t4).len = s.len := by
    unfold Sim.len
    rw [ecol, erow]
    exact ht4len
  have hg := guard_inr (energyUpdate t4) (by
    intro i hi
    rw [helen] at hi
    rw [helen, ecur]
    exact ht4inr i hi)
  intro i hi
  rw [step_eq]
  have := hg i (by rw [helen]; exact hi)
  rwa [helen] at this

/-- C4 (amended): with at least three columns and three rows (a nonempty
interior sweep) and a finite pre-step field, after a completed `step` every
cell of `current` lies in `[-50, 50]`. The counterexample shows the bound
fails on interior-free grids, where injected amplitude is only copied by
the reflective boundary pass and never clamped. -/
theorem c4_amplitude_bound_amended (o : MathO) (time : ℚ) (s : Sim)
    (hc : 3 ≤ s.cols) (hr : 3 ≤ s.rows)
    (h1 : AllFin s.len s.current) (h2 : AllFin s.len s.previous) :
    ∀ i, inb s.len i →
      ∃ q : ℚ, aget s.len (step o time s).current i = F.num q ∧ -50 ≤ q ∧ q ≤ 50 :=
  step_inr o time s hc hr h1 h2

theorem allFin_const_zero (len : ℕ) : AllFin len (fun _ => F.num 0) := by
  intro i hi
  obtain ⟨h1, h2⟩ := hi
  simp [aget, h1, h2, F.isFinite]

/-- A trig oracle returning `0` everywhere (a stand-in consistent with
`sin 0 = 0`), used by concrete instances. -/
def oZero : MathO := { sinO := fun _ => 0, cosO := fun _ => 0, expO := fun _ => 0 }

/-- Oracle whose sine is the constant `0.842 ≈ sin 1`, used by the C4
counterexample (any value above `0.05` would do). -/
def oSin842 : MathO := { sinO := fun _ => 842/1000, cosO := fun _ => 0, expO := fun _ => 0 }

/-- A 2×2 grid (no interior cells) with reflective boundaries and one
amplitude-1000 source at cell (1,1): reachable by construction, a source
add, and two field toggles. -/
def c4state : Sim :=
  { mkSim 2 2 1 with
    reflectiveBoundaries := true
    sources := [{ x := 1, y := 1, frequency := 1/20, amplitude := 1000,
                  phase := 0, active := true }] }

theorem iterate_substep_shape (d : ℚ) (k : ℕ) (s : Sim) :
    ((substep d)^[k] s).cols = s.cols ∧ ((substep d)^[k] s).rows = s.rows ∧
    ((substep d)^[k] s).reflectiveBoundaries = s.reflectiveBoundaries := by
  induction k with
  | zero => exact ⟨rfl, rfl, rfl⟩
  | succ k ih =>
    have hit : (substep d)^[k + 1] s = substep d ((substep d)^[k] s) :=
      Function.iterate_succ_apply' (substep d) k s
    obtain ⟨g1, g2, _, _, _, _, _, _, g3, _⟩ := substep_grid d ((substep d)^[k] s)
    exact ⟨by rw [hit, g1, ih.1], by rw [hit, g2, ih.2.1], by rw [hit, g3, ih.2.2]⟩

theorem guard_zero (s : Sim) {i : ℤ} (hi : inb s.len i)
    (h : aget s.len s.current i = F.num 0) :
    aget s.len (stabilityGuard s).current i = F.num 0 := by
  unfold stabilityGuard
  split
  · exact aget_afill hi
  · exact h

/-- Core of claim C7: with absorbing boundaries every edge cell of
`current` is `0` after any completed step, for every configuration. -/
theorem step_absorbing_edge (o : MathO) (time : ℚ) (s : Sim)
    (hrefl : s.reflectiveBoundaries = false) {x y : ℤ}
    (hx : 0 ≤ x) (hx' : x < (s.cols : ℤ)) (hy : 0 ≤ y) (hy' : y < (s.rows : ℤ))
    (hedge : x = 0 ∨ x = (s.cols : ℤ) - 1 ∨ y = 0 ∨ y = (s.rows : ℤ) - 1) :
    aget s.len (step o time s).current (getIndex s.cols x y) = F.num 0 := by
  obtain ⟨spc, spr, _, _, _, _, _, _, sprefl, _⟩ := sourcePhase_fields o time s
  obtain ⟨k, hk⟩ : ∃ k, (numSubSteps s.waveSpeed s.dt).toNat = k + 1 :=
    ⟨(numSubSteps s.waveSpeed s.dt).toNat - 1, by
      have := numSubSteps_pos s.waveSpeed s.dt
      omega⟩
  set d := s.dt / ((numSubSteps s.waveSpeed s.dt : ℤ) : ℚ) with hd
  set t3 := (substep d)^[k] (sourcePhase o time s) with ht3
  obtain ⟨i3c, i3r, i3refl⟩ := iterate_substep_shape d k (sourcePhase o time s)
  have ht3c : t3.cols = s.cols := by rw [ht3, i3c, spc]
  have ht3r : t3.rows = s.rows := by rw [ht3, i3r, spr]
  have ht3refl : t3.reflectiveBoundaries = false := by rw [ht3, i3refl, sprefl, hrefl]
  set t4 := substep d t3 with ht4
  have ht4c2 : t4.cols = s.cols := by rw [ht4, (substep_grid d t3).1, ht3c]
  have ht4r2 : t4.rows = s.rows := by rw [ht4, (substep_grid d t3).2.1, ht3r]
  have ht4len2 : t4.len = s.len := by
    unfold Sim.len
    rw [ht4c2, ht4r2]
  -- the final sub-step applies absorbing boundary conditions last
  have hedge4 : aget t4.len t4.current (getIndex t4.cols x y) = F.num 0 := by
    have hcur : t4.current = applyBC t3.reflectiveBoundaries t3.cols t3.rows t3.len
        ((interiorCells t3.rows t3.cols).foldl
          (sweepCell t3.len t3.cols t3.wallMask
            (t3.waveSpeed * t3.waveSpeed * (d * d)) t3.damping)
          (t3.current, t3.previous)).1 := rfl
    have ht4lenA : t4.len = t3.len := by
      unfold Sim.len
      rw [ht4, (substep_grid d t3).1, (substep_grid d t3).2.1]
    have ht4cA : t4.cols = t3.cols := by rw [ht4, (substep_grid d t3).1]
    rw [ht4lenA, ht4cA, hcur, ht3refl]
    exact applyBC_absorbing_edge t3.cols t3.rows _
      hx (by rw [ht3c]; exact hx') hy (by rw [ht3r]; exact hy')
      (by rw [ht3c, ht3r]; exact hedge)
  have hstep : step o time s = stabilityGuard (energyUpdate t4) := by
    rw [step_eq, ← hd, hk, Function.iterate_succ_apply' (substep d) k, ← ht3, ← ht4]
  obtain ⟨ecur, _, _, _, ecol, erow, _⟩ := energyUpdate_fields t4
  have helen : (energyUpdate t4).len = s.len := by
    unfold Sim.len
    rw [ecol, erow, ht4c2, ht4r2]
  have hinb2 : inb (energyUpdate t4).len (getIndex s.cols x y) := by
    rw [helen]
    exact getIndex_inb hx hx' hy hy'
  have hz2 : aget (energyUpdate t4).len (energyUpdate t4).current (getIndex s.cols x y)
      = F.num 0 := by
    rw [helen, ecur]
    have := hedge4
    rw [ht4len2, ht4c2] at this
    exact this
  have hg := guard_zero (energyUpdate t4) hinb2 hz2
  rw [hstep]
  rw [helen] at hg
  exact hg

/-- Invariant used for claim C2: any non-finite `previous` cell sits at an
interior sweep index and is matched by a non-finite `current` cell (so the
full-scan guard on small grids must fire before a non-finite value could
hide in `previous` alone). -/
def NfOk (cols rows len : ℕ) (cur prev : ℤ → F) : Prop :=
  ∀ i : ℤ, inb len i → (aget len prev i).isFinite = false →
    interiorIdx cols rows i ∧ (aget len cur i).isFinite = false

theorem nfok_of_allfin {cols rows len : ℕ} {cur prev : ℤ → F}
    (h : AllFin len prev) : NfOk cols rows len cur prev := by
  intro i hi hp
  rw [h i hi] at hp
  exact absurd hp (by simp)

theorem nfok_of_class {cols rows len : ℕ} {c c' p : ℤ → F}
    (h : NfOk cols rows len c p)
    (hc : ∀ i, (aget len c' i).isFinite = (aget len c i).isFinite) :
    NfOk cols rows len c' p := by
  intro i hi hp
  refine ⟨(h i hi hp).1, ?_⟩
  rw [hc i]
  exact (h i hi hp).2

theorem sweepCell_nfok {cols rows : ℕ} {mask : ℤ → Bool} {q damp : ℚ} (hq : 0 ≤ q)
    {cp : (ℤ → F) × (ℤ → F)} {yx : ℕ × ℕ} (hyx : yx ∈ interiorCells rows cols)
    (h : NfOk cols rows (cols * rows) cp.1 cp.2) :
    NfOk cols rows (cols * rows)
      (sweepCell (cols * rows) cols mask q damp cp yx).1
      (sweepCell (cols * rows) cols mask q damp cp yx).2 := by
  rcases interior_coords hyx with ⟨hx1, hx2, hy1, hy2⟩
  have hinb : inb (cols * rows) (idxZ cols yx) := (interior_idx_inb hx1 hx2 hy1 hy2).1
  intro i hi hp
  by_cases hii : i = idxZ cols yx
  · subst hii
    by_cases hm : mask (idxZ cols yx)
    · rw [sweepCell_wall hm] at hp
      rw [aget_aset_self hinb] at hp
      exact absurd hp (by simp [F.isFinite])
    · rw [sweepCell_open (Bool.not_eq_true _ ▸ hm)] at hp ⊢
      rw [aget_aset_self hinb] at hp
      refine ⟨⟨(yx.2 : ℤ), (yx.1 : ℤ), hx1, hx2, hy1, hy2, rfl⟩, ?_⟩
      rw [aget_aset_self hinb]
      have hnan : clampJ (nvF (cols * rows) cols cp.1 cp.2 q damp (idxZ cols yx)) = F.nan :=
        sweep_nonfin _ _ _ q damp hq hp
      rw [hnan]
      rfl
  · rw [aget_congr (sweepCell_frame hii).2] at hp
    refine ⟨(h i hi hp).1, ?_⟩
    rw [aget_congr (sweepCell_frame hii).1]
    exact (h i hi hp).2

theorem sweepFold_nfok {cols rows : ℕ} {mask : ℤ → Bool} {q damp : ℚ} (hq : 0 ≤ q)
    (l : List (ℕ × ℕ)) (hl : ∀ yx ∈ l, yx ∈ interiorCells rows cols)
    (cp : (ℤ → F) × (ℤ → F)) (h : NfOk cols rows (cols * rows) cp.1 cp.2) :
    NfOk cols rows (cols * rows)
      (l.foldl (sweepCell (cols * rows) cols mask q damp) cp).1
      (l.foldl (sweepCell (cols * rows) cols mask q damp) cp).2 := by
  induction l generalizing cp with
  | nil => exact h
  | cons yx l ih =>
    exact ih (fun a ha => hl a (List.mem_cons_of_mem _ ha)) _
      (sweepCell_nfok hq (hl yx (List.mem_cons_self yx l)) h)

theorem bcfold_frame {α : Type} {len : ℕ} {T1 S1 T2 S2 : α → ℤ} (L : List α) (c : ℤ → F)
    {i : ℤ} (h : ∀ a ∈ L, i ≠ T1 a ∧ i ≠ T2 a) :
    L.foldl (fun c a => bcStep len (T1 a) (S1 a) (T2 a) (S2 a) c) c i = c i := by
  induction L generalizing c with
  | nil => rfl
  | cons b L ih =>
    have hb := h b (List.mem_cons_self b L)
    rw [List.foldl_cons, ih _ (fun a ha => h a (List.mem_cons_of_mem _ ha)),
      bcStep_frame hb.1 hb.2]

/-- `applyBoundaryConditions` only ever writes edge cells: any index that
is none of the four edge targets is untouched, in either mode. -/
theorem applyBC_frame (refl : Bool) (cols rows len : ℕ) (c : ℤ → F) {i : ℤ}
    (hrow : ∀ a ∈ List.range cols,
      i ≠ getIndex cols (a : ℤ) 0 ∧ i ≠ getIndex cols (a : ℤ) ((rows : ℤ) - 1))
    (hcol : ∀ a ∈ List.range rows,
      i ≠ getIndex cols 0 (a : ℤ) ∧ i ≠ getIndex cols ((cols : ℤ) - 1) (a : ℤ)) :
    applyBC refl cols rows len c i = c i := by
  cases refl with
  | false =>
    have e1 : absColPass cols rows len (absRowPass cols rows len c) i
        = absRowPass cols rows len c i := zfold_frame (List.range rows) _ hcol
    have e2 : absRowPass cols rows len c i = c i := zfold_frame (List.range cols) _ hrow
    exact e1.trans e2
  | true =>
    have e1 : reflColPass cols rows len (reflRowPass cols rows len c) i
        = reflRowPass cols rows len c i := bcfold_frame (List.range rows) _ hcol
    have e2 : reflRowPass cols rows len c i = c i := bcfold_frame (List.range cols) _ hrow
    exact e1.trans e2

theorem applyBC_nfok (refl : Bool) (cols rows : ℕ) {c p : ℤ → F}
    (h : NfOk cols rows (cols * rows) c p) :
    NfOk cols rows (cols * rows) (applyBC refl cols rows (cols * rows) c) p := by
  intro i hi hp
  obtain ⟨hint, hcur⟩ := h i hi hp
  have hcols : (0 : ℤ) < cols := by
    obtain ⟨x', y', _, hx2, _⟩ := hint
    omega
  have hrows : (0 : ℤ) < rows := by
    obtain ⟨x', y', _, _, _, hy2, _⟩ := hint
    omega
  refine ⟨hint, ?_⟩
  have hrow : ∀ a ∈ List.range cols,
      i ≠ getIndex cols (a : ℤ) 0 ∧ i ≠ getIndex cols (a : ℤ) ((rows : ℤ) - 1) := by
    intro a ha
    have haZ : (a : ℤ) < (cols : ℤ) := by exact_mod_cast List.mem_range.mp ha
    constructor
    · intro he
      exact edge_not_interior (by omega) haZ (by omega) (by omega)
        (Or.inr (Or.inr (Or.inl rfl))) (he ▸ hint)
    · intro he
      exact edge_not_interior (by omega) haZ (by omega) (by omega)
        (Or.inr (Or.inr (Or.inr rfl))) (he ▸ hint)
  have hcol : ∀ a ∈ List.range rows,
      i ≠ getIndex cols 0 (a : ℤ) ∧ i ≠ getIndex cols ((cols : ℤ) - 1) (a : ℤ) := by
    intro a ha
    have haZ : (a : ℤ) < (rows : ℤ) := by exact_mod_cast List.mem_range.mp ha
    constructor
    · intro he
      exact edge_not_interior (by omega) (by omega) (by omega) haZ
        (Or.inl rfl) (he ▸ hint)
    · intro he
      exact edge_not_interior (by omega) (by omega) (by omega) haZ
        (Or.inr (Or.inl rfl)) (he ▸ hint)
  rw [aget_congr (applyBC_frame refl cols rows (cols * rows) c hrow hcol)]
  exact hcur

theorem substep_nfok (d : ℚ) (s : Sim)
    (h : NfOk s.cols s.rows s.len s.current s.previous) :
    NfOk s.cols s.rows s.len (substep d s).current (substep d s).previous := by
  have hq : 0 ≤ s.waveSpeed * s.waveSpeed * (d * d) :=
    mul_nonneg (mul_self_nonneg _) (mul_self_nonneg _)
  have hsw := @sweepFold_nfok s.cols s.rows s.wallMask
    (s.waveSpeed * s.waveSpeed * (d * d)) s.damping hq
    (interiorCells s.rows s.cols) (fun yx hyx => hyx) (s.current, s.previous) h
  exact applyBC_nfok s.reflectiveBoundaries s.cols s.rows hsw

theorem iterate_substep_nfok (d : ℚ) (k : ℕ) (s : Sim)
    (h : NfOk s.cols s.rows s.len s.current s.previous) :
    NfOk s.cols s.rows s.len ((substep d)^[k] s).current ((substep d)^[k] s).previous := by
  induction k with
  | zero => exact h
  | succ k ih =>
    have hit : (substep d)^[k + 1] s = substep d ((substep d)^[k] s) :=
      Function.iterate_succ_apply' (substep d) k s
    obtain ⟨gc, gr, _⟩ := iterate_substep_shape d k s
    have hlen : ((substep d)^[k] s).len = s.len := by
      unfold Sim.len
      rw [gc, gr]
    have := substep_nfok d ((substep d)^[k] s) (by rw [gc, gr, hlen]; exact ih)
    rw [gc, gr, hlen] at this
    rw [hit]
    exact this

/-- On grids of at most 31 cells the guard stride `(len >>> 4) || 1` is
`1`, so a negative detection means every cell is finite. -/
theorem guardDetect_false_allfin (len : ℕ) (cur : ℤ → F) (hlen : len ≤ 31)
    (h : guardDetect len cur = false) : AllFin len cur := by
  simp only [guardDetect] at h
  rw [Bool.or_eq_false_iff] at h
  obtain ⟨h1, h2⟩ := h
  intro i hi
  by_contra hft
  have hf : (aget len cur i).isFinite = false := by
    cases hv : (aget len cur i).isFinite
    · rfl
    · exact absurd hv hft
  have hiN : i.toNat < len := by
    obtain ⟨ha, hb⟩ := hi
    omega
  have hmem : i.toNat ∈ List.range len := List.mem_range.mpr hiN
  have hcast : ((i.toNat : ℤ)) = i := Int.toNat_of_nonneg hi.1
  have htrue : ((List.range len).any fun (j : ℕ) =>
      j % (max 1 (len / 16)) == 0 && !(aget len cur (j : ℤ)).isFinite) = true := by
    refine List.any_eq_true.mpr ⟨i.toNat, hmem, ?_⟩
    have hstride : max 1 (len / 16) = 1 := by omega
    rw [hstride, hcast]
    simp [Nat.mod_one, hf]
  rw [htrue] at h1
  exact absurd h1 (by simp)

/-- Core of claim C2 (amended): on a grid of at most 31 cells (full-scan
guard) with finite `previous`, corrupting one cell of `current` with a
non-finite value and stepping once leaves every cell of both arrays
finite. -/
theorem step_recovery_small (o : MathO) (time : ℚ) (s : Sim) (j : ℤ) (v : F)
    (hlen : s.len ≤ 31) (hv : v.isFinite = false)
    (hprev : AllFin s.len s.previous) :
    ∀ i, inb s.len i →
      (aget s.len (step o time
        { s with current := aset s.len s.current j v }).current i).isFinite = true ∧
      (aget s.len (step o time
        { s with current := aset s.len s.current j v }).previous i).isFinite = true := by
  set s' : Sim := { s with current := aset s.len s.current j v } with hs'
  have h0 : NfOk s'.cols s'.rows s'.len s'.current s'.previous := nfok_of_allfin hprev
  obtain ⟨spc, spr, spprev, _⟩ := sourcePhase_fields o time s'
  have hsplen : (sourcePhase o time s').len = s'.len := by
    unfold Sim.len
    rw [spc, spr]
  have hclass : ∀ i : ℤ, (aget s'.len (sourcePhase o time s').current i).isFinite
      = (aget s'.len s'.current i).isFinite := fun i => sourcePhase_class o time s' i
  have hsp : NfOk s'.cols s'.rows s'.len (sourcePhase o time s').current
      (sourcePhase o time s').previous := by
    intro i hi hp
    rw [spprev] at hp
    obtain ⟨hint, hcur⟩ := h0 i hi hp
    refine ⟨hint, ?_⟩
    rw [hclass i]
    exact hcur
  have hsp2 : NfOk (sourcePhase o time s').cols (sourcePhase o time s').rows
      (sourcePhase o time s').len (sourcePhase o time s').current
      (sourcePhase o time s').previous := by
    rw [spc, spr, hsplen]
    exact hsp
  set d := s'.dt / ((numSubSteps s'.waveSpeed s'.dt : ℤ) : ℚ) with hd
  set k := (numSubSteps s'.waveSpeed s'.dt).toNat with hk
  set t4 := (substep d)^[k] (sourcePhase o time s') with ht4
  have hnf4 := iterate_substep_nfok d k (sourcePhase o time s') hsp2
  obtain ⟨i4c, i4r, _⟩ := iterate_substep_shape d k (sourcePhase o time s')
  have ht4len : t4.len = s'.len := by
    unfold Sim.len
    rw [ht4, i4c, i4r, spc, spr]
  have hnf4' : NfOk s.cols s.rows s.len t4.current t4.previous := by
    rw [ht4]
    rw [spc, spr, hsplen] at hnf4
    exact hnf4
  obtain ⟨ecur, eprev, _, _, ecol, erow, _⟩ := energyUpdate_fields t4
  have helen : (energyUpdate t4).len = s'.len := by
    unfold Sim.len
    rw [ecol, erow]
    exact ht4len
  have hstep : step o time s' = stabilityGuard (energyUpdate t4) := by
    rw [step_eq, ← hd, ← hk, ← ht4]
  intro i hi
  rw [hstep]
  by_cases hdet : guardDetect (energyUpdate t4).len (energyUpdate t4).current = true
  · have hgs : stabilityGuard (energyUpdate t4) =
        { energyUpdate t4 with
          current := afill (energyUpdate t4).len (energyUpdate t4).current 0
          previous := afill (energyUpdate t4).len (energyUpdate t4).previous 0
          velocity := afill (energyUpdate t4).len (energyUpdate t4).velocity 0 } := by
      unfold stabilityGuard
      rw [if_pos hdet]
    rw [hgs]
    have hib : inb (energyUpdate t4).len i := by
      rw [helen]
      exact hi
    constructor
    · rw [show aget s.len (afill (energyUpdate t4).len (energyUpdate t4).current 0) i
          = aget (energyUpdate t4).len (afill (energyUpdate t4).len
            (energyUpdate t4).current 0) i by rw [helen]; rfl]
      rw [aget_afill hib]
      rfl
    · rw [show aget s.len (afill (energyUpdate t4).len (energyUpdate t4).previous 0) i
          = aget (energyUpdate t4).len (afill (energyUpdate t4).len
            (energyUpdate t4).previous 0) i by rw [helen]; rfl]
      rw [aget_afill hib]
      rfl
  · have hdf : guardDetect (energyUpdate t4).len (energyUpdate t4).current = false := by
      cases hb : guardDetect (energyUpdate t4).len (energyUpdate t4).current
      · rfl
      · exact absurd hb hdet
    have hgid : stabilityGuard (energyUpdate t4) = energyUpdate t4 := by
      unfold stabilityGuard
      rw [if_neg hdet]
    rw [hgid]
    have hall : AllFin (energyUpdate t4).len (energyUpdate t4).current :=
      guardDetect_false_allfin _ _ (by rw [helen]; exact hlen) hdf
    have hallc : (aget s.len (energyUpdate t4).current i).isFinite = true := by
      rw [show aget s.len (energyUpdate t4).current i
          = aget (energyUpdate t4).len (energyUpdate t4).current i by rw [helen]; rfl]
      exact hall i (by rw [helen]; exact hi)
    refine ⟨hallc, ?_⟩
    rw [eprev]
    by_contra hft
    have hf : (aget s.len t4.previous i).isFinite = false := by
      cases hb : (aget s.len t4.previous i).isFinite
      · rfl
      · exact absurd hb hft
    have := (hnf4' i hi hf).2
    rw [ecur] at hallc
    rw [hallc] at this
    exact absurd this (by simp)

theorem iterate_substep_sources (d : ℚ) (k : ℕ) (s : Sim) :
    ((substep d)^[k] s).sources = s.sources := by
  induction k with
  | zero => rfl
  | succ k ih =>
    rw [Function.iterate_succ_apply' (substep d) k s,
      (substep_grid d ((substep d)^[k] s)).2.2.2.2.2.2.1, ih]

/-- The source list a completed `step` leaves behind: orbital update
followed by the manual-velocity advance, per source. -/
theorem step_sources (o : MathO) (time : ℚ) (s : Sim) :
    (step o time s).sources = (s.sources.map (orbUpd o)).map (moveSrc s.dt) := by
  rw [step_eq, (guard_fields _).2.2.1, (energyUpdate_fields _).2.2.2.1,
    iterate_substep_sources, (sourcePhase_fields o time s).2.2.2.2.2.2.2.2.2.2.2.2]

theorem orbUpd_keeps (o : MathO) (src : Src) :
    (orbUpd o src).frequency = src.frequency ∧ (orbUpd o src).amplitude = src.amplitude ∧
    (orbUpd o src).phase = src.phase ∧ (orbUpd o src).active = src.active ∧
    (orbUpd o src).orbitCenterX = src.orbitCenterX ∧
    (orbUpd o src).orbitCenterY = src.orbitCenterY ∧
    (orbUpd o src).orbitRadius = src.orbitRadius ∧
    (orbUpd o src).orbitSpeed = src.orbitSpeed := by
  unfold orbUpd
  split <;> exact ⟨rfl, rfl, rfl, rfl, rfl, rfl, rfl, rfl⟩

theorem moveX_keeps (dt : ℚ) (src : Src) :
    (moveX dt src).frequency = src.frequency ∧ (moveX dt src).amplitude = src.amplitude ∧
    (moveX dt src).phase = src.phase ∧ (moveX dt src).active = src.active ∧
    (moveX dt src).orbitCenterX = src.orbitCenterX ∧
    (moveX dt src).orbitCenterY = src.orbitCenterY ∧
    (moveX dt src).orbitRadius = src.orbitRadius ∧
    (moveX dt src).orbitSpeed = src.orbitSpeed ∧
    (moveX dt src).orbitAngle = src.orbitAngle ∧ (moveX dt src).vx = src.vx ∧
    (moveX dt src).vy = src.vy ∧ (moveX dt src).y = src.y := by
  unfold moveX
  split <;> exact ⟨rfl, rfl, rfl, rfl, rfl, rfl, rfl, rfl, rfl, rfl, rfl, rfl⟩

theorem moveY_keeps (dt : ℚ) (src : Src) :
    (moveY dt src).frequency = src.frequency ∧ (moveY dt src).amplitude = src.amplitude ∧
    (moveY dt src).phase = src.phase ∧ (moveY dt src).active = src.active ∧
    (moveY dt src).orbitCenterX = src.orbitCenterX ∧
    (moveY dt src).orbitCenterY = src.orbitCenterY ∧
    (moveY dt src).orbitRadius = src.orbitRadius ∧
    (moveY dt src).orbitSpeed = src.orbitSpeed ∧
    (moveY dt src).orbitAngle = src.orbitAngle ∧ (moveY dt src).vx = src.vx ∧
    (moveY dt src).vy = src.vy ∧ (moveY dt src).x = src.x := by
  unfold moveY
  split <;> exact ⟨rfl, rfl, rfl, rfl, rfl, rfl, rfl, rfl, rfl, rfl, rfl, rfl⟩

theorem moveSrc_keeps (dt : ℚ) (src : Src) :
    (moveSrc dt src).frequency = src.frequency ∧ (moveSrc dt src).amplitude = src.amplitude ∧
    (moveSrc dt src).phase = src.phase ∧ (moveSrc dt src).active = src.active ∧
    (moveSrc dt src).orbitCenterX = src.orbitCenterX ∧
    (moveSrc dt src).orbitCenterY = src.orbitCenterY ∧
    (moveSrc dt src).orbitRadius = src.orbitRadius ∧
    (moveSrc dt src).orbitSpeed = src.orbitSpeed ∧
    (moveSrc dt src).orbitAngle = src.orbitAngle := by
  unfold moveSrc moveOne
  split
  · exact ⟨rfl, rfl, rfl, rfl, rfl, rfl, rfl, rfl, rfl⟩
  · split
    · obtain ⟨f1, f2, f3, f4, f5, f6, f7, f8, f9, _⟩ := moveY_keeps dt (moveX dt src)
      obtain ⟨g1, g2, g3, g4, g5, g6, g7, g8, g9, _⟩ := moveX_keeps dt src
      exact ⟨f1.trans g1, f2.trans g2, f3.trans g3, f4.trans g4, f5.trans g5,
        f6.trans g6, f7.trans g7, f8.trans g8, f9.trans g9⟩
    · exact ⟨rfl, rfl, rfl, rfl, rfl, rfl, rfl, rfl, rfl⟩

/-- C10: `step` never modifies a source's `frequency`, `amplitude`,
`phase`, `active` flag, or orbit parameters other than `orbitAngle`; the
Doppler shift is computed transiently at injection time and never written
back, and the source count is preserved. -/
theorem c10_step_keeps_source_identity (o : MathO) (time : ℚ) (s : Sim) (jdx : ℕ)
    (src : Src) (hj : s.sources.get? jdx = some src) :
    ∃ src', (step o time s).sources.get? jdx = some src' ∧
      src'.frequency = src.frequency ∧ src'.amplitude = src.amplitude ∧
      src'.phase = src.phase ∧ src'.active = src.active ∧
      src'.orbitCenterX = src.orbitCenterX ∧ src'.orbitCenterY = src.orbitCenterY ∧
      src'.orbitRadius = src.orbitRadius ∧ src'.orbitSpeed = src.orbitSpeed ∧
      (step o time s).sources.length = s.sources.length := by
  refine ⟨moveSrc s.dt (orbUpd o src), ?_, ?_⟩
  · rw [step_sources, List.get?_map, List.get?_map, hj]
    rfl
  · obtain ⟨m1, m2, m3, m4, m5, m6, m7, m8, _⟩ := moveSrc_keeps s.dt (orbUpd o src)
    obtain ⟨o1, o2, o3, o4, o5, o6, o7, o8⟩ := orbUpd_keeps o src
    refine ⟨m1.trans o1, m2.trans o2, m3.trans o3, m4.trans o4, m5.trans o5,
      m6.trans o6, m7.trans o7, m8.trans o8, ?_⟩
    rw [step_sources, List.length_map, List.length_map]

/-- C1: `step` computes `subSteps = max(1, ceil(waveSpeed * dt / CFL_LIMIT))`
with `CFL_LIMIT = 0.5` and runs exactly that many sub-steps of size
`dt / subSteps`; `waveSpeed = 0.5, dt = 1` gives 1 sub-step, `1.5` gives 3,
`5.0` gives 10. -/
theorem c1_cfl_substeps :
    (∀ ws dt : ℚ, numSubSteps ws dt = max 1 ⌈ws * dt / CFL_LIMIT⌉ ∧ CFL_LIMIT = 1/2) ∧
    (∀ (o : MathO) (time : ℚ) (s : Sim),
      step o time s = stabilityGuard (energyUpdate
        ((substep (s.dt / ((numSubSteps s.waveSpeed s.dt : ℤ) : ℚ)))^[(numSubSteps s.waveSpeed s.dt).toNat]
          (sourcePhase o time s)))) ∧
    numSubSteps (1/2) 1 = 1 ∧ numSubSteps (3/2) 1 = 3 ∧ numSubSteps 5 1 = 10 :=
  ⟨fun _ _ => ⟨rfl, rfl⟩, fun _ _ _ => rfl, by with_unfolding_all decide, by with_unfolding_all decide, by with_unfolding_all decide⟩

/-- C6: whenever the stability guard detects a non-finite sampled value, it
zero-fills exactly the `current`, `previous` and `velocity` buffers while
sources, walls, the obstacle mask, the energy map and every simulation
parameter are unchanged; the guard is a total function, so the step
completes without raising. -/
theorem c6_guard_reset_frame (s : Sim) (h : guardDetect s.len s.current = true) :
    (stabilityGuard s).current = afill s.len s.current 0 ∧
    (stabilityGuard s).previous = afill s.len s.previous 0 ∧
    (stabilityGuard s).velocity = afill s.len s.velocity 0 ∧
    (∀ i, inb s.len i →
      aget s.len (stabilityGuard s).current i = F.num 0 ∧
      aget s.len (stabilityGuard s).previous i = F.num 0 ∧
      aget s.len (stabilityGuard s).velocity i = F.num 0) ∧
    (stabilityGuard s).sources = s.sources ∧
    (stabilityGuard s).walls = s.walls ∧
    (stabilityGuard s).wallMask = s.wallMask ∧
    (stabilityGuard s).energyMap = s.energyMap ∧
    (stabilityGuard s).width = s.width ∧
    (stabilityGuard s).height = s.height ∧
    (stabilityGuard s).cellSize = s.cellSize ∧
    (stabilityGuard s).cols = s.cols ∧
    (stabilityGuard s).rows = s.rows ∧
    (stabilityGuard s).energyTrailEnabled = s.energyTrailEnabled ∧
    (stabilityGuard s).energyDecay = s.energyDecay ∧
    (stabilityGuard s).wallMaskDirty = s.wallMaskDirty ∧
    (stabilityGuard s).waveSpeed = s.waveSpeed ∧
    (stabilityGuard s).damping = s.damping ∧
    (stabilityGuard s).dt = s.dt ∧
    (stabilityGuard s).reflectiveBoundaries = s.reflectiveBoundaries := by
  have hg : stabilityGuard s = { s with
      current := afill s.len s.current 0
      previous := afill s.len s.previous 0
      velocity := afill s.len s.velocity 0 } := by
    unfold stabilityGuard
    rw [if_pos h]
  rw [hg]
  refine ⟨rfl, rfl, rfl, ?_, rfl, rfl, rfl, rfl, rfl, rfl, rfl, rfl, rfl, rfl,
    rfl, rfl, rfl, rfl, rfl, rfl⟩
  intro i hi
  exact ⟨aget_afill hi, aget_afill hi, aget_afill hi⟩

def c6state : Sim := { mkSim 2 2 1 with current := fun _ => F.nan }

theorem c6_guard_reset_frame_witness :
    guardDetect c6state.len c6state.current = true ∧
    (stabilityGuard c6state).sources = c6state.sources ∧
    aget c6state.len (stabilityGuard c6state).current 0 = F.num 0 := by
  have h : guardDetect c6state.len c6state.current = true := by with_unfolding_all decide
  obtain ⟨_, _, _, hz, hs, _⟩ := c6_guard_reset_frame c6state h
  exact ⟨h, hs, (hz 0 ⟨by decide, by with_unfolding_all decide⟩).1⟩

/-- C9: `addWall` stores the wall with each of the four pixel coordinates
divided by `cellSize`, the slit list unscaled, and marks the obstacle mask
dirty, leaving every other part of the state unchanged; a dirty mask is
rebuilt from the wall list by the next `rebuildWallMask` (the start of
`step`). -/
theorem c9_addWall_pixel_division (s : Sim) (x1 y1 x2 y2 : ℚ) (slits : Option (List Slit)) :
    (addWall s x1 y1 x2 y2 slits).walls
      = s.walls ++ [{ x1 := x1 / s.cellSize
                      y1 := y1 / s.cellSize
                      x2 := x2 / s.cellSize
                      y2 := y2 / s.cellSize
                      slits := slits }] ∧
    (addWall s x1 y1 x2 y2 slits).wallMaskDirty = true ∧
    (addWall s x1 y1 x2 y2 slits).sources = s.sources ∧
    (addWall s x1 y1 x2 y2 slits).current = s.current ∧
    (addWall s x1 y1 x2 y2 slits).previous = s.previous ∧
    (addWall s x1 y1 x2 y2 slits).velocity = s.velocity ∧
    (addWall s x1 y1 x2 y2 slits).energyMap = s.energyMap ∧
    (addWall s x1 y1 x2 y2 slits).wallMask = s.wallMask ∧
    (addWall s x1 y1 x2 y2 slits).cellSize = s.cellSize ∧
    (addWall s x1 y1 x2 y2 slits).cols = s.cols ∧
    (addWall s x1 y1 x2 y2 slits).rows = s.rows ∧
    (∀ s' : Sim, s'.wallMaskDirty = true → s'.walls ≠ [] →
      (rebuildWallMask s').wallMask = buildMask s'.walls s'.rows s'.cols ∧
      (rebuildWallMask s').wallMaskDirty = false) := by
  refine ⟨rfl, rfl, rfl, rfl, rfl, rfl, rfl, rfl, rfl, rfl, rfl, ?_⟩
  intro s' hd hne
  have he : s'.walls.isEmpty = false := by
    cases hw : s'.walls with
    | nil => exact absurd hw hne
    | cons a l => rfl
  constructor <;> (unfold rebuildWallMask; rw [hd, he]; rfl)

theorem c9_addWall_pixel_division_witness :
    (addWall (mkSim 10 10 2) 4 6 8 2 none).walls
      = [{ x1 := 2, y1 := 3, x2 := 4, y2 := 1, slits := none }] ∧
    (rebuildWallMask (addWall (mkSim 10 10 2) 4 6 8 2 none)).wallMaskDirty = false := by
  obtain ⟨hw, hd, _, _, _, _, _, _, _, _, _, hre⟩ :=
    c9_addWall_pixel_division (mkSim 10 10 2) 4 6 8 2 none
  refine ⟨by rw [hw]; with_unfolding_all decide, ?_⟩
  exact (hre _ hd (by rw [hw]; with_unfolding_all decide)).2

theorem orbUpd_orbital (o : MathO) (src : Src)
    (hcx : src.orbitCenterX.isSome = true) (hr : src.orbitRadius.isSome = true)
    (hs : src.orbitSpeed.isSome = true) :
    orbUpd o src = { src with
      orbitAngle := some (src.orbitAngle.getD 0 + src.orbitSpeed.getD 0)
      vx := some ((src.orbitCenterX.getD 0
        + src.orbitRadius.getD 0 * o.cosO (src.orbitAngle.getD 0 + src.orbitSpeed.getD 0)
        - src.x) * (1/10))
      vy := some ((src.orbitCenterY.getD (src.orbitCenterX.getD 0)
        + src.orbitRadius.getD 0 * o.sinO (src.orbitAngle.getD 0 + src.orbitSpeed.getD 0)
        - src.y) * (1/10))
      x := src.orbitCenterX.getD 0
        + src.orbitRadius.getD 0 * o.cosO (src.orbitAngle.getD 0 + src.orbitSpeed.getD 0)
      y := src.orbitCenterY.getD (src.orbitCenterX.getD 0)
        + src.orbitRadius.getD 0 * o.sinO (src.orbitAngle.getD 0 + src.orbitSpeed.getD 0) } := by
  simp [orbUpd, hcx, hr, hs]

theorem moveSrc_orbital_nonzero (dt : ℚ) (src : Src) (cx : ℚ)
    (hcx : src.orbitCenterX = some cx) (hne : cx ≠ 0) :
    moveSrc dt src = src := by
  have ht : truthyOpt src.orbitCenterX = true := by
    rw [hcx]
    simp [truthyOpt, hne]
  unfold moveSrc
  split
  · rfl
  · unfold moveOne
    rw [ht]
    rfl

/-- C5 (amended): a source whose `orbitCenterX` is set to a NONZERO value
(together with a radius and a speed) advances only by orbital motion during
`step` — angle incremented by the speed, position recomputed from
center + radius·(cos, sin)(angle), `vx`/`vy` set to 0.1·(new − old) — and is
never additionally advanced by `velocity * dt`. The original claim's
"regardless of where its orbit center lies" is false: the guard
`!source.orbitCenterX` is a JS falsy check, so an orbital source whose
center x-coordinate is exactly `0` receives the manual `velocity * dt`
advance on top of its orbital update. -/
theorem c5_orbital_only_advance_amended (o : MathO) (time : ℚ) (s : Sim) (jdx : ℕ)
    (src : Src) (cx : ℚ) (hj : s.sources.get? jdx = some src)
    (hcx : src.orbitCenterX = some cx) (hne : cx ≠ 0)
    (hr : src.orbitRadius.isSome = true) (hs : src.orbitSpeed.isSome = true) :
    ∃ src', (step o time s).sources.get? jdx = some src' ∧
      src'.orbitAngle = some (src.orbitAngle.getD 0 + src.orbitSpeed.getD 0) ∧
      src'.x = cx + src.orbitRadius.getD 0
        * o.cosO (src.orbitAngle.getD 0 + src.orbitSpeed.getD 0) ∧
      src'.y = src.orbitCenterY.getD cx + src.orbitRadius.getD 0
        * o.sinO (src.orbitAngle.getD 0 + src.orbitSpeed.getD 0) ∧
      src'.vx = some ((src'.x - src.x) * (1/10)) ∧
      src'.vy = some ((src'.y - src.y) * (1/10)) := by
  refine ⟨moveSrc s.dt (orbUpd o src), ?_, ?_⟩
  · rw [step_sources, List.get?_map, List.get?_map, hj]
    rfl
  · have hocx : (orbUpd o src).orbitCenterX = some cx :=
      ((orbUpd_keeps o src).2.2.2.2.1).trans hcx
    rw [moveSrc_orbital_nonzero s.dt (orbUpd o src) cx hocx hne]
    have hcxs : src.orbitCenterX.isSome = true := by rw [hcx]; rfl
    rw [orbUpd_orbital o src hcxs hr hs]
    have hgd : src.orbitCenterX.getD 0 = cx := by rw [hcx]; rfl
    refine ⟨rfl, by rw [← hgd], by rw [← hgd], rfl, rfl⟩

def oHalf : MathO := { sinO := fun _ => 1/2, cosO := fun _ => 1/2, expO := fun _ => 0 }

def c5wsrc : Src :=
  { x := 0
    y := 0
    frequency := 0
    amplitude := 0
    phase := 0
    active := true
    orbitCenterX := some 3
    orbitCenterY := some 4
    orbitRadius := some 2
    orbitSpeed := some 1
    orbitAngle := some 0 }

def c5wstate : Sim := { mkSim 1 1 1 with sources := [c5wsrc] }

theorem c5_orbital_only_advance_amended_witness :
    ∃ src', (step oHalf 0 c5wstate).sources.get? 0 = some src' ∧
      src'.orbitAngle = some (c5wsrc.orbitAngle.getD 0 + c5wsrc.orbitSpeed.getD 0) ∧
      src'.x = 3 + c5wsrc.orbitRadius.getD 0
        * oHalf.cosO (c5wsrc.orbitAngle.getD 0 + c5wsrc.orbitSpeed.getD 0) ∧
      src'.y = c5wsrc.orbitCenterY.getD 3 + c5wsrc.orbitRadius.getD 0
        * oHalf.sinO (c5wsrc.orbitAngle.getD 0 + c5wsrc.orbitSpeed.getD 0) ∧
      src'.vx = some ((src'.x - c5wsrc.x) * (1/10)) ∧
      src'.vy = some ((src'.y - c5wsrc.y) * (1/10)) :=
  c5_orbital_only_advance_amended oHalf 0 c5wstate 0 c5wsrc 3 rfl rfl
    (by norm_num) rfl rfl

def c5src : Src :=
  { x := 0
    y := 0
    frequency := 0
    amplitude := 0
    phase := 0
    active := true
    orbitCenterX := some 0
    orbitCenterY := some 6
    orbitRadius := some 2
    orbitSpeed := some 1
    orbitAngle := some 0 }

def c5state : Sim := { mkSim 1 1 1 with sources := [c5src] }

/-- C5 counterexample: an orbital source whose orbit center lies at x = 0.
Its orbital position after one step is x = 0 + 2·cos(1) = 1 under the
half-valued trig oracle, but the stored source ends at x = 11/10: the
`velocity * dt` advance was applied on top of the orbital update because
`!source.orbitCenterX` treats the center coordinate `0` as absent. -/
theorem c5_orbital_only_advance_counterexample :
    c5src.orbitCenterX = some 0 ∧ c5src.orbitRadius.isSome = true ∧
    c5src.orbitSpeed.isSome = true ∧ c5src.active = true ∧
    c5state.sources.get? 0 = some c5src ∧
    ((step oHalf 0 c5state).sources.get? 0).map Src.x = some (11/10) ∧
    c5src.orbitCenterX.getD 0 + c5src.orbitRadius.getD 0
      * oHalf.cosO (c5src.orbitAngle.getD 0 + c5src.orbitSpeed.getD 0) = 1 ∧
    (11/10 : ℚ) ≠ 1 := by
  with_unfolding_all decide

/-- C2 (amended): on a grid of at most 31 cells — where the stability
guard's stride `(len >>> 4) || 1` is `1`, so every cell is scanned —
writing a non-finite value into any one cell of `current` of a state with
finite `previous` and calling `step` once leaves every cell of `current`
and `previous` finite. The counterexample shows that on larger grids the
sparse sampling can miss the corruption, so the original unconditional
claim is false. -/
theorem c2_nan_recovery_amended (o : MathO) (time : ℚ) (s : Sim) (j : ℤ) (v : F)
    (hlen : s.len ≤ 31) (hv : v.isFinite = false)
    (hprev : AllFin s.len s.previous) :
    ∀ i, inb s.len i →
      (aget s.len (step o time
        { s with current := aset s.len s.current j v }).current i).isFinite = true ∧
      (aget s.len (step o time
        { s with current := aset s.len s.current j v }).previous i).isFinite = true :=
  step_recovery_small o time s j v hlen hv hprev

theorem c2_nan_recovery_amended_witness :
    (aget (mkSim 4 4 1).len (step oZero 0 { mkSim 4 4 1 with
      current := aset (mkSim 4 4 1).len (mkSim 4 4 1).current 5 F.nan }).current 0).isFinite
      = true ∧
    (aget (mkSim 4 4 1).len (step oZero 0 { mkSim 4 4 1 with
      current := aset (mkSim 4 4 1).len (mkSim 4 4 1).current 5 F.nan }).previous 0).isFinite
      = true :=
  c2_nan_recovery_amended oZero 0 (mkSim 4 4 1) 5 F.nan
    (by with_unfolding_all decide) rfl (allFin_const_zero _) 0
    ⟨by decide, by with_unfolding_all decide⟩

/-- A 17×3 grid (51 cells, guard stride `51 >>> 4 = 3`) with `NaN` written
into the single interior cell at index 32. -/
def c2state : Sim :=
  { mkSim 17 3 1 with
    current := aset (mkSim 17 3 1).len (mkSim 17 3 1).current 32 F.nan }

set_option maxRecDepth 100000 in
/-- C2 counterexample: on the 51-cell grid the in-place sweep leaves `NaN`
at indices 31 and 32 after one `step` — neither is a multiple of the guard
stride 3 nor the last cell, so the sparse scan misses them and the field
is not fully finite. -/
theorem c2_nan_recovery_counterexample :
    F.nan.isFinite = false ∧
    (aget c2state.len (step oZero 0 c2state).current 31).isFinite = false := by
  with_unfolding_all decide

theorem c4_amplitude_bound_amended_witness :
    ∃ q : ℚ, aget (mkSim 3 3 1).len (step oZero 0 (mkSim 3 3 1)).current 4 = F.num q ∧
      -50 ≤ q ∧ q ≤ 50 :=
  c4_amplitude_bound_amended oZero 0 (mkSim 3 3 1)
    (by with_unfolding_all decide) (by with_unfolding_all decide)
    (allFin_const_zero _) (allFin_const_zero _) 4
    ⟨by decide, by with_unfolding_all decide⟩

set_option maxRecDepth 100000 in
/-- C4 counterexample: on the 2×2 reflective grid `c4state` with an
amplitude-1000 source and a sine oracle returning 0.842, one `step` leaves
every cell of `current` at 842, far outside `[-50, 50]` — the clamp lives
in the interior sweep, which is empty on a 2×2 grid, and the reflective
boundary pass copies the unclamped injected value to every cell. -/
theorem c4_amplitude_bound_counterexample :
    aget c4state.len (step oSin842 0 c4state).current 0 = F.num 842 ∧
    ¬ ∃ q : ℚ, aget c4state.len (step oSin842 0 c4state).current 0 = F.num q ∧
      -50 ≤ q ∧ q ≤ 50 := by
  have h : aget c4state.len (step oSin842 0 c4state).current 0 = F.num 842 := by
    with_unfolding_all decide
  refine ⟨h, ?_⟩
  rintro ⟨q, hq, _, hq50⟩
  rw [h] at hq
  injection hq with hq'
  rw [← hq'] at hq50
  norm_num at hq50

/-- C7: with `reflectiveBoundaries = false`, after every completed `step`
every cell on the four edges of the grid (row 0, row rows−1, column 0,
column cols−1) equals 0, for every configuration of sources, walls and
parameters. -/
theorem c7_absorbing_edges_zero (o : MathO) (time : ℚ) (s : Sim)
    (hrefl : s.reflectiveBoundaries = false) (x y : ℤ)
    (hx : 0 ≤ x) (hx' : x < (s.cols : ℤ)) (hy : 0 ≤ y) (hy' : y < (s.rows : ℤ))
    (hedge : x = 0 ∨ x = (s.cols : ℤ) - 1 ∨ y = 0 ∨ y = (s.rows : ℤ) - 1) :
    aget s.len (step o time s).current (getIndex s.cols x y) = F.num 0 :=
  step_absorbing_edge o time s hrefl hx hx' hy hy' hedge

theorem c7_absorbing_edges_zero_witness :
    aget (mkSim 3 3 1).len (step oZero 0 (mkSim 3 3 1)).current
      (getIndex (mkSim 3 3 1).cols 0 0) = F.num 0 :=
  c7_absorbing_edges_zero oZero 0 (mkSim 3 3 1) rfl 0 0
    (by decide) (by with_unfolding_all decide)
    (by decide) (by with_unfolding_all decide) (Or.inl rfl)

theorem foldl_fix {α β : Type} (g : β → α → β) (L : List α) (c : β)
    (h : ∀ d x, g d x = d) : L.foldl g c = c := by
  induction L generalizing c with
  | nil => rfl
  | cons a L ih =>
    rw [List.foldl_cons, h c a]
    exact ih c

theorem aset_len0 {f : ℤ → F} {i : ℤ} {v : F} : aset 0 f i v = f := by
  unfold aset
  rw [if_neg]
  rintro ⟨h1, h2⟩
  omega

theorem afill_len0 {f : ℤ → F} {q : ℚ} : afill 0 f q = f := by
  funext j
  unfold afill
  rw [if_neg]
  rintro ⟨h1, h2⟩
  omega

theorem bcZeroStep_len0 {t1 t2 : ℤ} {c : ℤ → F} : bcZeroStep 0 t1 t2 c = c := by
  unfold bcZeroStep
  rw [aset_len0, aset_len0]

theorem bcStep_len0 {t1 s1 t2 s2 : ℤ} {c : ℤ → F} : bcStep 0 t1 s1 t2 s2 c = c := by
  show aset 0 (aset 0 c t1 (aget 0 c s1)) t2
    (aget 0 (aset 0 c t1 (aget 0 c s1)) s2) = c
  rw [aset_len0, aset_len0]

theorem reflRowPass_len0 (cols rows : ℕ) (cur : ℤ → F) :
    reflRowPass cols rows 0 cur = cur :=
  foldl_fix _ _ _ (fun _ _ => bcStep_len0)

theorem reflColPass_len0 (cols rows : ℕ) (cur : ℤ → F) :
    reflColPass cols rows 0 cur = cur :=
  foldl_fix _ _ _ (fun _ _ => bcStep_len0)

theorem absRowPass_len0 (cols rows : ℕ) (cur : ℤ → F) :
    absRowPass cols rows 0 cur = cur :=
  foldl_fix _ _ _ (fun _ _ => bcZeroStep_len0)

theorem absColPass_len0 (cols rows : ℕ) (cur : ℤ → F) :
    absColPass cols rows 0 cur = cur :=
  foldl_fix _ _ _ (fun _ _ => bcZeroStep_len0)

theorem applyBC_len0 (refl : Bool) (cols rows : ℕ) (cur : ℤ → F) :
    applyBC refl cols rows 0 cur = cur := by
  unfold applyBC
  split
  · rw [reflRowPass_len0, reflColPass_len0]
  · rw [absRowPass_len0, absColPass_len0]

theorem interiorCells_deg {rows cols : ℕ} (h : cols = 0 ∨ rows = 0) :
    interiorCells rows cols = [] := by
  rcases h with h | h <;> subst h <;> simp [interiorCells]

theorem substep_deg (d : ℚ) (s : Sim) (hdeg : s.cols = 0 ∨ s.rows = 0) :
    substep d s = s := by
  have hlen : s.len = 0 := by
    rcases hdeg with h | h <;> simp [Sim.len, h]
  have hic : interiorCells s.rows s.cols = [] := interiorCells_deg hdeg
  simp only [substep, hic, List.foldl_nil]
  rw [hlen, applyBC_len0]

theorem energyUpdate_deg (s : Sim) (hlen : s.len = 0) : energyUpdate s = s := by
  unfold energyUpdate
  split
  · rw [show (fun i => if 0 ≤ i ∧ i < (s.len : ℤ) then
        F.maxJ ((aget s.len s.energyMap i).mul (F.num s.energyDecay))
          (F.abs (aget s.len s.current i))
      else s.energyMap i) = s.energyMap from funext fun i => by
        rw [if_neg]
        rintro ⟨h1, h2⟩
        rw [hlen] at h2
        omega]
  · rfl

theorem guard_deg (s : Sim) (hlen : s.len = 0) : stabilityGuard s = s := by
  unfold stabilityGuard
  split
  · rw [hlen, afill_len0, afill_len0, afill_len0]
  · rfl

theorem injFold_fst_deg (o : MathO) (time dt : ℚ) (cols rows len : ℕ)
    (hdeg : cols = 0 ∨ rows = 0) (srcs : List Src) (acc : (ℤ → F) × List Src) :
    (srcs.foldl (injectMoveOne o time dt cols rows len) acc).1 = acc.1 := by
  induction srcs generalizing acc with
  | nil => rfl
  | cons src srcs ih =>
    rw [List.foldl_cons, ih]
    unfold injectMoveOne
    split
    · rfl
    · show injectField o time cols rows len acc.1 src = acc.1
      refine injectField_neg ?_
      rintro ⟨h1, h2, h3, h4⟩
      rcases hdeg with h | h
      · rw [h] at h2
        omega
      · rw [h] at h4
        omega

theorem sourcePhase_current_deg (o : MathO) (time : ℚ) (s : Sim)
    (hdeg : s.cols = 0 ∨ s.rows = 0) :
    (sourcePhase o time s).current = s.current := by
  obtain ⟨rc, rr, rcur, _⟩ := rebuildWallMask_fields s
  have h : (sourcePhase o time s).current = (rebuildWallMask s).current :=
    injFold_fst_deg o time (rebuildWallMask s).dt (rebuildWallMask s).cols
      (rebuildWallMask s).rows (rebuildWallMask s).len
      (by rw [rc, rr]; exact hdeg)
      ((rebuildWallMask s).sources.map (orbUpd o)) ((rebuildWallMask s).current, [])
  exact h.trans rcur

theorem step_deg (o : MathO) (time : ℚ) (s : Sim) (hdeg : s.cols = 0 ∨ s.rows = 0) :
    step o time s = sourcePhase o time s := by
  obtain ⟨spc, spr, _⟩ := sourcePhase_fields o time s
  have hdeg2 : (sourcePhase o time s).cols = 0 ∨ (sourcePhase o time s).rows = 0 := by
    rw [spc, spr]
    exact hdeg
  have hlen2 : (sourcePhase o time s).len = 0 := by
    rcases hdeg2 with h | h <;> simp [Sim.len, h]
  have hfix : (substep (s.dt / ((numSubSteps s.waveSpeed s.dt : ℤ) : ℚ)))^[(numSubSteps
      s.waveSpeed s.dt).toNat] (sourcePhase o time s) = sourcePhase o time s :=
    Function.iterate_fixed (substep_deg _ _ hdeg2) _
  rw [step_eq, hfix, energyUpdate_deg _ hlen2, guard_deg _ hlen2]

/-- C8: on a degenerate grid (`cols = 0` or `rows = 0`) every public
operation is total and acts as a no-op on the (empty) field: `getValue`,
`getEnergyValue` and every `sampleLine` sample return 0, a full `step`
reduces to the source-bookkeeping phase and leaves all four per-cell
arrays untouched, and `addSource`, `addWall`, `clear` and `applyImpulse`
leave `current` unchanged; moreover a zero-length wall's distance test
degenerates to the well-defined point distance and an out-of-bounds
source injects nothing, so neither can make a subsequent step fail. -/
theorem c8_degenerate_grid_safety (s : Sim) (hdeg : s.cols = 0 ∨ s.rows = 0) :
    (∀ x y : ℚ, getValue s x y = F.num 0) ∧
    (∀ x y : ℚ, getEnergyValue s x y = F.num 0) ∧
    (∀ px1 py1 px2 py2 : ℚ, ∀ n : ℕ, ∀ v ∈ sampleLine s px1 py1 px2 py2 n,
      v = F.num 0) ∧
    (∀ (o : MathO) (time : ℚ),
      step o time s = sourcePhase o time s ∧
      (step o time s).current = s.current ∧
      (step o time s).previous = s.previous ∧
      (step o time s).velocity = s.velocity ∧
      (step o time s).energyMap = s.energyMap ∧
      (step o time s).cols = s.cols ∧ (step o time s).rows = s.rows) ∧
    (∀ x y f a : ℚ, (addSource s x y f a).current = s.current) ∧
    (∀ x1 y1 x2 y2 : ℚ, ∀ sl : Option (List Slit),
      (addWall s x1 y1 x2 y2 sl).current = s.current) ∧
    ((clear s).current = s.current ∧ (clear s).previous = s.previous) ∧
    (∀ (o : MathO) (px py r a : ℚ), (applyImpulse o s px py r a).current = s.current) ∧
    (∀ (w : Wall) (x y : ℚ), w.x1 = w.x2 → w.y1 = w.y2 →
      distToLine2 x y w.x1 w.y1 w.x2 w.y2 = (x - w.x1) ^ 2 + (y - w.y1) ^ 2) ∧
    (∀ (o : MathO) (time : ℚ) (cur : ℤ → F) (src : Src),
      ¬ (0 ≤ roundJ src.x ∧ roundJ src.x < (s.cols : ℤ) ∧
         0 ≤ roundJ src.y ∧ roundJ src.y < (s.rows : ℤ)) →
      injectField o time s.cols s.rows s.len cur src = cur) := by
  have hlen : s.len = 0 := by
    rcases hdeg with h | h <;> simp [Sim.len, h]
  have hcond : ∀ gx gy : ℤ, gx < 0 ∨ gx ≥ (s.cols : ℤ) ∨ gy < 0 ∨ gy ≥ (s.rows : ℤ) := by
    intro gx gy
    rcases hdeg with h | h
    · rcases lt_or_le gx 0 with hx | hx
      · exact Or.inl hx
      · exact Or.inr (Or.inl (by rw [h]; exact_mod_cast hx))
    · rcases lt_or_le gy 0 with hy | hy
      · exact Or.inr (Or.inr (Or.inl hy))
      · exact Or.inr (Or.inr (Or.inr (by rw [h]; exact_mod_cast hy)))
  have hnotin : ∀ gx gy : ℤ, ¬ (0 ≤ gx ∧ gx < (s.cols : ℤ) ∧ 0 ≤ gy ∧ gy < (s.rows : ℤ)) := by
    intro gx gy
    rintro ⟨h1, h2, h3, h4⟩
    rcases hdeg with h | h
    · rw [h] at h2
      omega
    · rw [h] at h4
      omega
  refine ⟨?_, ?_, ?_, ?_, fun _ _ _ _ => rfl, fun _ _ _ _ _ => rfl, ?_, ?_, ?_, ?_⟩
  · intro x y
    simp only [getValue]
    rw [if_pos (hcond _ _)]
  · intro x y
    simp only [getEnergyValue]
    rw [if_pos (hcond _ _)]
  · intro px1 py1 px2 py2 n v hv
    simp only [sampleLine] at hv
    by_cases hn : n = 1
    · rw [if_pos hn, if_neg (by
        rintro ⟨h1, h2⟩
        rcases hdeg with h | h
        · rw [h] at h1
          omega
        · rw [h] at h2
          omega)] at hv
      simpa using hv
    · rw [if_neg hn] at hv
      obtain ⟨i, _, hi⟩ := List.mem_map.mp hv
      rw [if_neg (hnotin _ _)] at hi
      exact hi.symm
  · intro o time
    have h1 := step_deg o time s hdeg
    have h2 := sourcePhase_current_deg o time s hdeg
    obtain ⟨spc, spr, spprev, spvel, _, _, _, _, _, _, _, spem, _⟩ :=
      sourcePhase_fields o time s
    exact ⟨h1, by rw [h1, h2], by rw [h1, spprev], by rw [h1, spvel],
      by rw [h1, spem], by rw [h1, spc], by rw [h1, spr]⟩
  · exact ⟨by
      show afill s.len s.current 0 = s.current
      rw [hlen, afill_len0], by
      show afill s.len s.previous 0 = s.previous
      rw [hlen, afill_len0]⟩
  · intro o px py r a
    refine foldl_fix _ _ _ (fun d dy => foldl_fix _ _ _ (fun d' dx => ?_))
    dsimp only
    split
    · rfl
    · split
      · rfl
      · rw [hlen]
        exact aset_len0
  · intro w x y h1 h2
    unfold distToLine2
    rw [if_pos (by rw [h1, h2]; ring)]
  · intro o time cur src hb
    exact injectField_neg hb

theorem c8_degenerate_grid_safety_witness :
    getValue (mkSim 0 0 4) 5 5 = F.num 0 ∧
    (step oZero 0 (mkSim 0 0 4)).current = (mkSim 0 0 4).current ∧
    (applyImpulse oZero (mkSim 0 0 4) 1 1 8 5).current = (mkSim 0 0 4).current := by
  obtain ⟨h1, _, _, h4, _, _, _, h8, _⟩ :=
    c8_degenerate_grid_safety (mkSim 0 0 4) (Or.inl (by with_unfolding_all decide))
  exact ⟨h1 5 5, (h4 oZero 0).2.1, h8 oZero 1 1 8 5⟩

def c10src : Src :=
  { x := 1
    y := 1
    frequency := 1/20
    amplitude := 2
    phase := 0
    active := true }

def c10state : Sim := { mkSim 3 3 1 with sources := [c10src] }

theorem c10_step_keeps_source_identity_witness :
    ∃ src', (step oZero 0 c10state).sources.get? 0 = some src' ∧
      src'.frequency = c10src.frequency ∧ src'.amplitude = c10src.amplitude ∧
      src'.phase = c10src.phase ∧ src'.active = c10src.active ∧
      src'.orbitCenterX = c10src.orbitCenterX ∧ src'.orbitCenterY = c10src.orbitCenterY ∧
      src'.orbitRadius = c10src.orbitRadius ∧ src'.orbitSpeed = c10src.orbitSpeed ∧
      (step oZero 0 c10state).sources.length = c10state.sources.length :=
  c10_step_keeps_source_identity oZero 0 c10state 0 c10src rfl

theorem truncQ_eq_floor {q : ℚ} (h : 0 ≤ q) : truncQ q = ⌊q⌋ := by
  unfold truncQ
  rw [Int.tdiv_eq_ediv (Rat.num_nonneg.mpr h) (Int.natCast_nonneg _), Rat.floor_def]

theorem toInt32_id {z : ℤ} (h0 : 0 ≤ z) (h1 : z < 2147483648) : toInt32 z = z := by
  simp only [toInt32]
  have hm : z % 4294967296 = z := by omega
  rw [hm, if_pos h1]

/-- `(x * (1/cellSize)) | 0` agrees with `Math.floor(x / cellSize)` for
nonnegative quotients below `2^31`. -/
theorem sampleCoord_eq {p c : ℚ} (h0 : 0 ≤ p / c) (h1 : p / c < 2147483648) :
    toInt32 (truncQ (p * (1 / c))) = ⌊p / c⌋ := by
  rw [mul_one_div, truncQ_eq_floor h0]
  exact toInt32_id (Int.floor_nonneg.mpr h0) (by
    rw [Int.floor_lt]
    exact_mod_cast h1)

theorem sampleLine_length (s : Sim) (px1 py1 px2 py2 : ℚ) (n : ℕ) :
    (sampleLine s px1 py1 px2 py2 n).length = n := by
  simp only [sampleLine]
  split
  · rename_i h
    rw [h]
    rfl
  · simp

/-- C3 (amended): `sampleLine` always returns exactly `numSamples` values,
and for `numSamples ≥ 2` the i-th value equals `getValue` at the i-th
linearly interpolated point between the endpoints whenever both scaled
coordinates are nonnegative and below `2^31` (so that the code's
truncation-and-wrap `| 0` agrees with `getValue`'s `Math.floor`). The
original claim fails at `numSamples = 1`: the code divides by
`numSamples - 1 = 0`, the resulting `NaN` coordinates collapse to cell
`(0, 0)` under `| 0`, and the single sample does not equal `getValue` at
the first endpoint. -/
theorem c3_sampleLine_contract_amended (s : Sim) (px1 py1 px2 py2 : ℚ) (n i : ℕ)
    (hn : 2 ≤ n) (hi : i < n)
    (hx0 : 0 ≤ (px1 + (px2 - px1) * (1 / ((n : ℚ) - 1)) * (i : ℚ)) / s.cellSize)
    (hx1 : (px1 + (px2 - px1) * (1 / ((n : ℚ) - 1)) * (i : ℚ)) / s.cellSize < 2147483648)
    (hy0 : 0 ≤ (py1 + (py2 - py1) * (1 / ((n : ℚ) - 1)) * (i : ℚ)) / s.cellSize)
    (hy1 : (py1 + (py2 - py1) * (1 / ((n : ℚ) - 1)) * (i : ℚ)) / s.cellSize
      < 2147483648) :
    (∀ m : ℕ, (sampleLine s px1 py1 px2 py2 m).length = m) ∧
    (sampleLine s px1 py1 px2 py2 n).get? i
      = some (getValue s (px1 + (px2 - px1) * (1 / ((n : ℚ) - 1)) * (i : ℚ))
          (py1 + (py2 - py1) * (1 / ((n : ℚ) - 1)) * (i : ℚ))) := by
  refine ⟨sampleLine_length s px1 py1 px2 py2, ?_⟩
  have hne : n ≠ 1 := by omega
  simp only [sampleLine]
  rw [if_neg hne]
  simp only [List.get?_map, List.get?_range hi, Option.map_some']
  rw [sampleCoord_eq hx0 hx1, sampleCoord_eq hy0 hy1]
  simp only [getValue]
  by_cases hb : 0 ≤ ⌊(px1 + (px2 - px1) * (1 / ((n : ℚ) - 1)) * (i : ℚ)) / s.cellSize⌋ ∧
      ⌊(px1 + (px2 - px1) * (1 / ((n : ℚ) - 1)) * (i : ℚ)) / s.cellSize⌋ < (s.cols : ℤ) ∧
      0 ≤ ⌊(py1 + (py2 - py1) * (1 / ((n : ℚ) - 1)) * (i : ℚ)) / s.cellSize⌋ ∧
      ⌊(py1 + (py2 - py1) * (1 / ((n : ℚ) - 1)) * (i : ℚ)) / s.cellSize⌋ < (s.rows : ℤ)
  · obtain ⟨b1, b2, b3, b4⟩ := hb
    rw [if_pos ⟨b1, b2, b3, b4⟩, if_neg (by rintro (h | h | h | h) <;> omega)]
    rfl
  · rw [if_neg hb, if_pos (by
      by_contra hq
      push_neg at hq
      exact hb ⟨hq.1, hq.2.1, hq.2.2.1, hq.2.2.2⟩)]

/-- A 10×10 grid of cell size 4 whose `current` holds 1 at index 55,
i.e. at grid cell (5, 5), which contains the pixel point (22, 22). -/
def s3 : Sim :=
  { mkSim 40 40 4 with
    current := aset (mkSim 40 40 4).len (mkSim 40 40 4).current 55 (F.num 1) }

theorem c3_sampleLine_contract_amended_witness :
    (∀ m : ℕ, (sampleLine s3 0 0 22 22 m).length = m) ∧
    (sampleLine s3 0 0 22 22 2).get? 1
      = some (getValue s3 (0 + (22 - 0) * (1 / ((2 : ℚ) - 1)) * ((1 : ℕ) : ℚ))
          (0 + (22 - 0) * (1 / ((2 : ℚ) - 1)) * ((1 : ℕ) : ℚ))) :=
  c3_sampleLine_contract_amended s3 0 0 22 22 2 1 (by norm_num) (by norm_num)
    (by with_unfolding_all decide) (by with_unfolding_all decide)
    (by with_unfolding_all decide) (by with_unfolding_all decide)

set_option maxRecDepth 100000 in
/-- C3 counterexample: with `numSamples = 1` the first (and only)
interpolated point is the endpoint itself, here pixel (22, 22) where
`getValue` reads 1, but `sampleLine` divides by `numSamples - 1 = 0` and
the `NaN` coordinates collapse under `| 0` to cell `(0, 0)`, returning 0. -/
theorem c3_sampleLine_contract_counterexample :
    (sampleLine s3 22 22 22 22 1).length = 1 ∧
    (sampleLine s3 22 22 22 22 1).get? 0 = some (F.num 0) ∧
    getValue s3 22 22 = F.num 1 ∧ F.num 0 ≠ F.num 1 := by
  with_unfolding_all decide

end Wave
